import Mathlib

/-!
# Verification of the SonicCut marker-placement core

A shallow embedding, over `ℚ`, of the marker-placement engine in
`src/services/audioProcessingService.ts`:

* `generateMarkers` — the "Desperation Threshold" placement loop
  (source lines 108–216), embedded as a fuelled loop `genLoop` whose
  fuel `genFuel` is the iteration bound `⌈totalDuration/minDuration⌉ + 1`;
  the loop returns `none` exactly when the fuel runs out with the cursor
  still short of `totalDuration`.
* `generateMarkersByCount` — the 8-step bisection wrapper
  (source lines 220–260), embedded as `gmbcLoop`; besides the source's
  `bestMarkers` result it also returns, as ghost data, the trace of
  `(sensitivity, result)` pairs actually evaluated, so that properties
  about "the evaluated runs" can be stated.

JavaScript `number` arithmetic is modelled by exact rational arithmetic.
`crypto.randomUUID()` (source line 201) is modelled by an explicit
id-supply argument `uuid : ℕ → ℕ`: the `k`-th fresh id drawn during a
call is `uuid k`.  The source's `while` loops over array indices are
embedded with explicit fuel equal to the array length, which dominates
the number of iterations the source loop can make.
-/

namespace SonicCut

/-- Marker type: `'Cut' | 'Safety'` (src/types.ts, `Marker.type`). -/
inductive MarkerType : Type
  | Cut : MarkerType
  | Safety : MarkerType
deriving DecidableEq, Repr, Inhabited

/-- A cut marker (src/types.ts `Marker`): opaque `id` (modelled as `ℕ`),
`time` in seconds, onset `strength`, and `type`. -/
structure Marker : Type where
  id : ℕ
  time : ℚ
  strength : ℚ
  type : MarkerType
deriving DecidableEq, Repr, Inhabited

/-- Onset envelope (src/types.ts `OnsetData`): parallel arrays of
timestamps and normalized onset strengths.  The advisory `detectedBpm`
field is not read by the placement engine and is omitted. -/
structure OnsetData : Type where
  times : List ℚ
  values : List ℚ
deriving DecidableEq, Repr

/-- `GenOptions` (audioProcessingService.ts lines 102–106). -/
structure GenOptions : Type where
  minDuration : ℚ
  maxDuration : ℚ
  sensitivity : ℚ
deriving DecidableEq, Repr

/-- The candidate record built at lines 146–150: `{index, time, strength}`.
`index` is `ℤ` because the no-candidate fallback at line 164 uses `-1`. -/
structure Candidate : Type where
  index : ℤ
  time : ℚ
  strength : ℚ
deriving DecidableEq, Repr

/-- `const noiseFloor = 0.05` (line 117). -/
def noiseFloor : ℚ := 1/20

/-- The index-advance `while` loop of lines 132–134
(`while(currentIndex < times.length && times[currentIndex] < winStart) currentIndex++`),
with explicit fuel; `advanceIndex` runs it with fuel `times.length`,
which bounds the possible number of iterations. -/
def advanceIndexF (times : List ℚ) (winStart : ℚ) : ℕ → ℕ → ℕ
  | 0, i => i
  | fuel + 1, i =>
    if i < times.length ∧ times.getD i 0 < winStart then
      advanceIndexF times winStart fuel (i + 1)
    else i

/-- Lines 132–134: advance `currentIndex` to the first in-range index at
or after `i` whose timestamp is not below `winStart`. -/
def advanceIndex (times : List ℚ) (winStart : ℚ) (i : ℕ) : ℕ :=
  advanceIndexF times winStart times.length i

/-- The candidate test of lines 143–151: interior index
(`scanIndex > 0 && scanIndex < values.length - 1`), value at least both
neighbours (`val >= values[scanIndex-1] && val >= values[scanIndex+1]`),
and above the noise floor (`val > noiseFloor`). -/
def isLocalCandidate (values : List ℚ) (i : ℕ) : Bool :=
  decide (0 < i) && decide (i + 1 < values.length) &&
  decide (values.getD (i - 1) 0 ≤ values.getD i 0) &&
  decide (values.getD (i + 1) 0 ≤ values.getD i 0) &&
  decide (noiseFloor < values.getD i 0)

/-- The candidate-collection scan of lines 138–155
(`while(scanIndex < times.length && times[scanIndex] <= winEnd) ...`),
with explicit fuel; `collectCandidates` runs it with fuel `times.length`. -/
def collectFrom (data : OnsetData) (winEnd : ℚ) : ℕ → ℕ → List Candidate
  | 0, _ => []
  | fuel + 1, i =>
    if i < data.times.length ∧ data.times.getD i 0 ≤ winEnd then
      (if isLocalCandidate data.values i then
        [⟨(i : ℤ), data.times.getD i 0, data.values.getD i 0⟩]
      else []) ++ collectFrom data winEnd fuel (i + 1)
    else []

/-- Lines 138–155: all candidates found scanning from index `i` up to
timestamp `winEnd`, in index (hence time) order. -/
def collectCandidates (data : OnsetData) (winEnd : ℚ) (i : ℕ) : List Candidate :=
  collectFrom data winEnd data.times.length i

/-- Decides `k * a ^ (3/2) ≤ y` for `0 ≤ a`, by squaring both sides.
This is the exact real-number content of the comparison
`cand.strength >= threshold` at line 180, with
`threshold = (1.0 - sensitivity) * Math.pow(1.0 - progress, 1.5)`
(lines 177–178), taking `k = 1 - sensitivity`, `a = 1 - progress`,
`y = strength`.  (`a > 0` always holds at the call site because the
scan guarantees `cand.time ≤ winEnd`, hence `progress < 1`.)  For
`0 ≤ k` both sides of `k * a^(3/2) ≤ y` are compared via
`0 ≤ y ∧ k² a³ ≤ y²`; for `k < 0` the left side is nonpositive and the
condition is `0 ≤ y ∨ y² ≤ k² a³`. -/
def powCmpLe (k a y : ℚ) : Bool :=
  if 0 ≤ k then decide (0 ≤ y) && decide (k ^ 2 * a ^ 3 ≤ y ^ 2)
  else decide (0 ≤ y) || decide (y ^ 2 ≤ k ^ 2 * a ^ 3)

/-- Lines 170–180: the decaying "desperation" acceptance test for one
candidate.  `progress = (cand.time - winStart) / (winEnd - winStart + 0.001)`,
and the candidate passes iff `strength ≥ (1 - sensitivity) * (1 - progress)^1.5`. -/
def desperationPasses (opts : GenOptions) (winStart winEnd : ℚ) (c : Candidate) : Bool :=
  let progress := (c.time - winStart) / (winEnd - winStart + 1/1000)
  powCmpLe (1 - opts.sensitivity) (1 - progress) c.strength

/-- The selection scan of lines 169–185: first candidate (in time order)
passing its threshold, if any. -/
def selectCandidate (opts : GenOptions) (winStart winEnd : ℚ) :
    List Candidate → Option Candidate
  | [] => none
  | c :: rest =>
    if desperationPasses opts winStart winEnd c then some c
    else selectCandidate opts winStart winEnd rest

/-- The fallback reduction of line 195:
`candidates.reduce((prev, current) => (prev.strength > current.strength) ? prev : current)`.
Note the incumbent `prev` survives only when *strictly* stronger, so on a
tie the later candidate replaces it. -/
def reduceStrongest : Candidate → List Candidate → Candidate
  | prev, [] => prev
  | prev, c :: rest =>
    reduceStrongest (if c.strength < prev.strength then prev else c) rest

/-- Lines 157–197: choose the marker position for one window.  Returns the
chosen candidate together with the `isSafety` flag: an empty candidate
list forces a safety cut at `winEnd` with strength 0 and index `-1`
(lines 160–164); otherwise the first candidate passing its threshold is a
`Cut` (lines 169–185), and if none passes, the strongest candidate is a
`Safety` (lines 192–196). -/
def chooseFrom (opts : GenOptions) (winStart winEnd : ℚ) :
    List Candidate → Candidate × Bool
  | [] => (⟨-1, winEnd, 0⟩, true)
  | c :: rest =>
    match selectCandidate opts winStart winEnd (c :: rest) with
    | some chosen => (chosen, false)
    | none => (reduceStrongest c rest, true)

/-- The main placement loop of lines 122–208, with explicit fuel.  One
fuel unit is one loop iteration; `none` means the fuel ran out with
`cursor < totalDuration` still true.  `k` counts the markers committed so
far, so `uuid k` is the fresh id for the next marker (line 201).  The
markers are returned in commit order. -/
def genLoop (data : OnsetData) (opts : GenOptions) (totalDuration : ℚ)
    (uuid : ℕ → ℕ) : ℕ → ℚ → ℕ → ℕ → Option (List Marker)
  | 0, cursor, _, _ => if totalDuration ≤ cursor then some [] else none
  | fuel + 1, cursor, currentIndex, k =>
    if totalDuration ≤ cursor then some []
    else
      let winStart := cursor + opts.minDuration
      let winEnd := min (cursor + opts.maxDuration) totalDuration
      if totalDuration ≤ winStart then some []
      else
        let currentIndex' := advanceIndex data.times winStart currentIndex
        let chosen := chooseFrom opts winStart winEnd
          (collectCandidates data winEnd currentIndex')
        (genLoop data opts totalDuration uuid fuel chosen.1.time currentIndex' (k + 1)).map
          (⟨uuid k, chosen.1.time, chosen.1.strength,
            if chosen.2 then MarkerType.Safety else MarkerType.Cut⟩ :: ·)

/-- The cleanup of lines 211–213: drop the final marker when it lies
within `0.5 s` of `totalDuration`. -/
def cleanup (totalDuration : ℚ) (ms : List Marker) : List Marker :=
  match ms.getLast? with
  | none => ms
  | some m => if |m.time - totalDuration| < 1/2 then ms.dropLast else ms

/-- Fuel sufficient for the placement loop: the cursor advances by at
least `minDuration` per iteration, so `⌈totalDuration/minDuration⌉ + 1`
iterations always suffice (see `genLoop_isSome_of_progress`). -/
def genFuel (totalDuration minDuration : ℚ) : ℕ :=
  ⌈totalDuration / minDuration⌉.toNat + 1

/-- Lines 108–216: `generateMarkers`.  `none` only when the placement
loop fails to terminate within `genFuel` iterations (shown impossible for
well-formed inputs in the termination theorem). -/
def generateMarkers (data : OnsetData) (opts : GenOptions)
    (totalDuration : ℚ) (uuid : ℕ → ℕ) : Option (List Marker) :=
  (genLoop data opts totalDuration uuid
      (genFuel totalDuration opts.minDuration) 0 0 0).map (cleanup totalDuration)

/-- `|result.length - targetCount|` (line 241). -/
def markerDiff (target : ℤ) (result : List Marker) : ℤ :=
  |(result.length : ℤ) - target|

/-- `diff < minDiff` (line 243), where `minDiff : Option ℤ` with `none`
standing for the initial `Infinity` (line 230). -/
def ltInf (d : ℤ) : Option ℤ → Bool
  | none => true
  | some m => decide (d < m)

/-- The bisection loop of lines 233–257, with `r` remaining iterations
(started at 8) and `i` the iteration counter indexing the id supply for
the inner `generateMarkers` call.  Besides the source state
(`low`, `high`, `bestMarkers`, `minDiff`) it returns, as ghost data, the
list of `(sensitivity, result)` pairs evaluated by the remaining
iterations, in evaluation order.  `none` propagates an inner
`generateMarkers` fuel failure. -/
def gmbcLoop (data : OnsetData) (target : ℤ) (duration minD maxD : ℚ)
    (uuids : ℕ → ℕ → ℕ) :
    ℕ → ℕ → ℚ → ℚ → List Marker → Option ℤ →
    Option (List (ℚ × List Marker) × List Marker)
  | _, 0, _, _, bestMarkers, _ => some ([], bestMarkers)
  | i, r + 1, low, high, bestMarkers, minDiff =>
    let mid := (low + high) / 2
    match generateMarkers data ⟨minD, maxD, mid⟩ duration (uuids i) with
    | none => none
    | some result =>
      let diff := markerDiff target result
      let bestMarkers' := if ltInf diff minDiff then result else bestMarkers
      let minDiff' := if ltInf diff minDiff then some diff else minDiff
      if (result.length : ℤ) = target then some ([(mid, result)], bestMarkers')
      else
        (gmbcLoop data target duration minD maxD uuids (i + 1) r
            (if (result.length : ℤ) < target then mid else low)
            (if (result.length : ℤ) < target then high else mid)
            bestMarkers' minDiff').map
          (fun p => ((mid, result) :: p.1, p.2))

/-- Lines 220–260: `generateMarkersByCount` — 8 bisection iterations over
sensitivity in `[0, 1]`, returning the best-seen marker list (the ghost
trace of evaluated runs is dropped here). -/
def generateMarkersByCount (data : OnsetData) (target : ℤ) (duration : ℚ)
    (minD maxD : ℚ) (uuids : ℕ → ℕ → ℕ) : Option (List Marker) :=
  (gmbcLoop data target duration minD maxD uuids 0 8 0 1 [] none).map (·.2)

/-- The id-free content of a marker, used to state determinism modulo the
fresh-id supply. -/
def markerData (m : Marker) : ℚ × ℚ × MarkerType :=
  (m.time, m.strength, m.type)

/-- Example envelope: two interior peaks of equal strength `1/5` at times
`6/5` and `7/5`, both above the noise floor. -/
def exData : OnsetData :=
  ⟨[11/10, 6/5, 13/10, 7/5, 3/2], [1/10, 1/5, 1/10, 1/5, 1/10]⟩

/-- Example envelope with a plateau: the interior sample equals both of
its neighbours. -/
def plateauData : OnsetData := ⟨[1, 2, 3], [1/2, 1/2, 1/2]⟩

/-- The empty envelope. -/
def emptyData : OnsetData := ⟨[], []⟩

/-- The hypothesis that the envelope timestamps are monotone on in-range
indices; it follows from the strictly-increasing-timestamps assumption of
the specification and is what the scan lemmas actually use. -/
def MonoTimes (l : List ℚ) : Prop :=
  ∀ i j : ℕ, i ≤ j → j < l.length → l.getD i 0 ≤ l.getD j 0

lemma monoTimes_of_sorted {l : List ℚ} (h : l.Sorted (· < ·)) : MonoTimes l := by
  intro i j hij hj
  rcases Nat.eq_or_lt_of_le hij with rfl | hlt
  · exact le_rfl
  · rw [List.getD_eq_getElem _ _ (lt_trans hlt hj), List.getD_eq_getElem _ _ hj]
    exact le_of_lt (by
      simpa using h.rel_get_of_lt (a := ⟨i, lt_trans hlt hj⟩) (b := ⟨j, hj⟩) hlt)

/-- Soundness of the squaring encoding: for a nonnegative base,
`powCmpLe k a y` decides exactly the real-number comparison
`k * a ^ 1.5 ≤ y` performed at source line 180. -/
lemma powCmpLe_iff_real (k a y : ℚ) (ha : 0 ≤ a) :
    powCmpLe k a y = true ↔ (k : ℝ) * (a : ℝ) ^ (3 / 2 : ℝ) ≤ (y : ℝ) := by
  have hA : (0 : ℝ) ≤ (a : ℝ) := by exact_mod_cast ha
  set s : ℝ := (a : ℝ) ^ (3 / 2 : ℝ) with hsdef
  have hs0 : 0 ≤ s := Real.rpow_nonneg hA _
  have hsq : s ^ 2 = (a : ℝ) ^ 3 := by
    rw [hsdef, ← Real.rpow_natCast ((a : ℝ) ^ (3 / 2 : ℝ)) 2, ← Real.rpow_mul hA,
      show (3 / 2 : ℝ) * ((2 : ℕ) : ℝ) = ((3 : ℕ) : ℝ) by push_cast; ring,
      Real.rpow_natCast]
  rw [powCmpLe]
  by_cases hk : 0 ≤ k
  · rw [if_pos hk]
    have hK : (0 : ℝ) ≤ (k : ℝ) := by exact_mod_cast hk
    have hKs : 0 ≤ (k : ℝ) * s := mul_nonneg hK hs0
    simp only [Bool.and_eq_true, decide_eq_true_eq]
    constructor
    · rintro ⟨hy, hle⟩
      have hy2 : (0 : ℝ) ≤ (y : ℝ) := by exact_mod_cast hy
      have hle2 : (k : ℝ) ^ 2 * (a : ℝ) ^ 3 ≤ (y : ℝ) ^ 2 := by exact_mod_cast hle
      rw [← hsq] at hle2
      nlinarith [hle2, hKs, hy2, sq_nonneg ((k : ℝ) * s - (y : ℝ)),
        sq_nonneg ((k : ℝ) * s + (y : ℝ))]
    · intro h
      have hy2 : (0 : ℝ) ≤ (y : ℝ) := le_trans hKs h
      refine ⟨by exact_mod_cast hy2, ?_⟩
      have h2 : (k : ℝ) ^ 2 * (a : ℝ) ^ 3 ≤ (y : ℝ) ^ 2 := by
        rw [← hsq]
        nlinarith [h, hKs]
      exact_mod_cast h2
  · rw [if_neg hk]
    push_neg at hk
    have hK : (k : ℝ) < 0 := by exact_mod_cast hk
    have hKs : (k : ℝ) * s ≤ 0 := by nlinarith [hs0, hK]
    simp only [Bool.or_eq_true, decide_eq_true_eq]
    constructor
    · rintro (hy | hle)
      · have hy2 : (0 : ℝ) ≤ (y : ℝ) := by exact_mod_cast hy
        linarith
      · have hle2 : (y : ℝ) ^ 2 ≤ (k : ℝ) ^ 2 * (a : ℝ) ^ 3 := by exact_mod_cast hle
        rw [← hsq] at hle2
        by_cases hy : (0 : ℝ) ≤ (y : ℝ)
        · linarith
        · push_neg at hy
          nlinarith [hle2, hKs, hy, sq_nonneg ((k : ℝ) * s - (y : ℝ)),
            sq_nonneg ((k : ℝ) * s + (y : ℝ))]
    · intro h
      by_cases hy : 0 ≤ y
      · exact Or.inl hy
      · refine Or.inr ?_
        push_neg at hy
        have hy2 : (y : ℝ) < 0 := by exact_mod_cast hy
        have h2 : (y : ℝ) ^ 2 ≤ (k : ℝ) ^ 2 * (a : ℝ) ^ 3 := by
          rw [← hsq]
          nlinarith [h, hKs, hy2]
        exact_mod_cast h2

/-! ### Lemmas on the index-advance loop -/

lemma advanceIndexF_ge (t : List ℚ) (w : ℚ) :
    ∀ f i, i ≤ advanceIndexF t w f i := by
  intro f
  induction f with
  | zero => intro i; simp [advanceIndexF]
  | succ f ih =>
    intro i
    simp only [advanceIndexF]
    split
    · exact le_trans (Nat.le_succ i) (ih (i + 1))
    · exact le_rfl

lemma advanceIndexF_le_length (t : List ℚ) (w : ℚ) :
    ∀ f i, i ≤ t.length → advanceIndexF t w f i ≤ t.length := by
  intro f
  induction f with
  | zero => intro i h; simpa [advanceIndexF] using h
  | succ f ih =>
    intro i h
    simp only [advanceIndexF]
    split
    · next hc => exact ih (i + 1) hc.1
    · exact h

lemma advanceIndexF_below (t : List ℚ) (w : ℚ) :
    ∀ f i j, i ≤ j → j < advanceIndexF t w f i → t.getD j 0 < w := by
  intro f
  induction f with
  | zero =>
    intro i j hij hj
    simp only [advanceIndexF] at hj
    omega
  | succ f ih =>
    intro i j hij hj
    simp only [advanceIndexF] at hj
    split at hj
    · next hc =>
      rcases Nat.eq_or_lt_of_le hij with rfl | hlt
      · exact hc.2
      · exact ih (i + 1) j hlt hj
    · omega

lemma advanceIndexF_stop (t : List ℚ) (w : ℚ) :
    ∀ f i, t.length ≤ f + i → advanceIndexF t w f i < t.length →
      w ≤ t.getD (advanceIndexF t w f i) 0 := by
  intro f
  induction f with
  | zero =>
    intro i hfuel hlt
    simp only [advanceIndexF] at hlt
    omega
  | succ f ih =>
    intro i hfuel hlt
    simp only [advanceIndexF] at hlt ⊢
    split at hlt
    · next hc =>
      rw [if_pos hc]
      exact ih (i + 1) (by omega) hlt
    · next hc =>
      rw [if_neg hc]
      push_neg at hc
      exact hc hlt

lemma advanceIndex_ge (t : List ℚ) (w : ℚ) (i : ℕ) : i ≤ advanceIndex t w i :=
  advanceIndexF_ge t w t.length i

lemma advanceIndex_below (t : List ℚ) (w : ℚ) (i : ℕ) :
    ∀ j, i ≤ j → j < advanceIndex t w i → t.getD j 0 < w :=
  fun j hij hj => advanceIndexF_below t w t.length i j hij hj

lemma advanceIndex_stop (t : List ℚ) (w : ℚ) (i : ℕ)
    (h : advanceIndex t w i < t.length) :
    w ≤ t.getD (advanceIndex t w i) 0 :=
  advanceIndexF_stop t w t.length i (by omega) h

/-! ### Lemmas on the candidate-collection scan -/

lemma isLocalCandidate_iff (vals : List ℚ) (i : ℕ) :
    isLocalCandidate vals i = true ↔
      0 < i ∧ i + 1 < vals.length ∧
      vals.getD (i - 1) 0 ≤ vals.getD i 0 ∧
      vals.getD (i + 1) 0 ≤ vals.getD i 0 ∧
      noiseFloor < vals.getD i 0 := by
  simp [isLocalCandidate, and_assoc]

lemma mem_collectFrom (data : OnsetData) (wE : ℚ) :
    ∀ f i c, c ∈ collectFrom data wE f i →
      ∃ j : ℕ, i ≤ j ∧ j < data.times.length ∧ data.times.getD j 0 ≤ wE ∧
        isLocalCandidate data.values j = true ∧
        c = ⟨(j : ℤ), data.times.getD j 0, data.values.getD j 0⟩ := by
  intro f
  induction f with
  | zero => intro i c hc; simp [collectFrom] at hc
  | succ f ih =>
    intro i c hc
    simp only [collectFrom] at hc
    split at hc
    · next hcond =>
      rcases List.mem_append.mp hc with hl | hr
      · refine ⟨i, le_rfl, hcond.1, hcond.2, ?_, ?_⟩ <;>
        · split at hl <;> simp_all
      · obtain ⟨j, hij, h2, h3, h4, h5⟩ := ih (i + 1) c hr
        exact ⟨j, by omega, h2, h3, h4, h5⟩
    · simp at hc

lemma collectFrom_complete (data : OnsetData) (wE : ℚ)
    (hm : MonoTimes data.times) :
    ∀ f i j, i ≤ j → j < i + f → j < data.times.length →
      data.times.getD j 0 ≤ wE → isLocalCandidate data.values j = true →
      (⟨(j : ℤ), data.times.getD j 0, data.values.getD j 0⟩ : Candidate) ∈
        collectFrom data wE f i := by
  intro f
  induction f with
  | zero => intro i j hij hj; omega
  | succ f ih =>
    intro i j hij hjf hjlen hwE hloc
    have hcond : i < data.times.length ∧ data.times.getD i 0 ≤ wE :=
      ⟨by omega, le_trans (hm i j hij hjlen) hwE⟩
    simp only [collectFrom, if_pos hcond]
    rcases Nat.eq_or_lt_of_le hij with rfl | hlt
    · refine List.mem_append.mpr (Or.inl ?_)
      simp [hloc]
    · exact List.mem_append.mpr (Or.inr (ih (i + 1) j hlt (by omega) hjlen hwE hloc))

lemma collectFrom_pairwise (data : OnsetData) (wE : ℚ)
    (hm : MonoTimes data.times) :
    ∀ f i, List.Pairwise (fun a b : Candidate => a.time ≤ b.time)
      (collectFrom data wE f i) := by
  intro f
  induction f with
  | zero => intro i; simp [collectFrom]
  | succ f ih =>
    intro i
    simp only [collectFrom]
    split
    · next hcond =>
      split
      · refine List.pairwise_cons.mpr ⟨?_, ih (i + 1)⟩
        intro b hb
        obtain ⟨j, hij, hjlen, _, _, rfl⟩ := mem_collectFrom data wE f (i + 1) b hb
        exact hm i j (by omega) hjlen
      · simpa using ih (i + 1)
    · simp

lemma mem_collectCandidates (data : OnsetData) (wE : ℚ) (i : ℕ) (c : Candidate)
    (hc : c ∈ collectCandidates data wE i) :
    ∃ j : ℕ, i ≤ j ∧ j < data.times.length ∧ data.times.getD j 0 ≤ wE ∧
      isLocalCandidate data.values j = true ∧
      c = ⟨(j : ℤ), data.times.getD j 0, data.values.getD j 0⟩ :=
  mem_collectFrom data wE data.times.length i c hc

lemma mem_collect_strength (data : OnsetData) (wE : ℚ) (i : ℕ) (c : Candidate)
    (hc : c ∈ collectCandidates data wE i) : noiseFloor < c.strength := by
  obtain ⟨j, _, _, _, hloc, rfl⟩ := mem_collectCandidates data wE i c hc
  exact ((isLocalCandidate_iff data.values j).mp hloc).2.2.2.2

lemma mem_collect_le_winEnd (data : OnsetData) (wE : ℚ) (i : ℕ) (c : Candidate)
    (hc : c ∈ collectCandidates data wE i) : c.time ≤ wE := by
  obtain ⟨j, _, _, hwE, _, rfl⟩ := mem_collectCandidates data wE i c hc
  exact hwE

lemma mem_collect_winStart_le (data : OnsetData) (wS wE : ℚ) (i : ℕ)
    (hm : MonoTimes data.times) (c : Candidate)
    (hc : c ∈ collectCandidates data wE (advanceIndex data.times wS i)) :
    wS ≤ c.time := by
  obtain ⟨j, haj, hjlen, _, _, rfl⟩ :=
    mem_collectCandidates data wE (advanceIndex data.times wS i) c hc
  have ha : advanceIndex data.times wS i < data.times.length := by omega
  exact le_trans (advanceIndex_stop data.times wS i ha)
    (hm (advanceIndex data.times wS i) j haj hjlen)

/-! ### Lemmas on candidate selection -/

lemma selectCandidate_mem (opts : GenOptions) (wS wE : ℚ) :
    ∀ l c, selectCandidate opts wS wE l = some c → c ∈ l := by
  intro l
  induction l with
  | nil => intro c hc; simp [selectCandidate] at hc
  | cons a rest ih =>
    intro c hc
    simp only [selectCandidate] at hc
    split at hc
    · simp_all
    · exact List.mem_cons_of_mem a (ih c hc)

lemma reduceStrongest_mem :
    ∀ (l : List Candidate) (prev : Candidate),
      reduceStrongest prev l ∈ prev :: l := by
  intro l
  induction l with
  | nil => intro prev; simp [reduceStrongest]
  | cons c rest ih =>
    intro prev
    simp only [reduceStrongest]
    split
    · rcases List.mem_cons.mp (ih prev) with h | h
      · simp [h]
      · exact List.mem_cons_of_mem _ (List.mem_cons_of_mem _ h)
    · rcases List.mem_cons.mp (ih c) with h | h
      · simp [h]
      · exact List.mem_cons_of_mem _ (List.mem_cons_of_mem _ h)

lemma chooseFrom_cases (opts : GenOptions) (wS wE : ℚ) :
    ∀ l : List Candidate,
      (l = [] ∧ chooseFrom opts wS wE l = (⟨-1, wE, 0⟩, true)) ∨
      (chooseFrom opts wS wE l).1 ∈ l := by
  intro l
  cases l with
  | nil => exact Or.inl ⟨rfl, rfl⟩
  | cons c rest =>
    refine Or.inr ?_
    simp only [chooseFrom]
    split
    · next chosen heq => exact selectCandidate_mem opts wS wE (c :: rest) chosen heq
    · exact reduceStrongest_mem rest c

/-- The chosen position never lies beyond `winEnd`: an accepted or
fallback candidate was collected with timestamp `≤ winEnd`, and the
no-candidate safety cut sits at `winEnd` itself. -/
lemma chooseFrom_collect_le (data : OnsetData) (opts : GenOptions)
    (wS wE : ℚ) (i0 : ℕ) :
    (chooseFrom opts wS wE (collectCandidates data wE i0)).1.time ≤ wE := by
  rcases chooseFrom_cases opts wS wE (collectCandidates data wE i0) with ⟨_, heq⟩ | hmem
  · rw [heq]
  · exact mem_collect_le_winEnd data wE i0 _ hmem

/-- With monotone timestamps, the chosen position never lies before
`winStart`: collected candidates start at the advanced index, and the
no-candidate safety cut sits at `winEnd ≥ winStart`. -/
lemma chooseFrom_collect_ge (data : OnsetData) (opts : GenOptions)
    (wS wE : ℚ) (i0 : ℕ) (hm : MonoTimes data.times) (hwSE : wS ≤ wE) :
    wS ≤ (chooseFrom opts wS wE
      (collectCandidates data wE (advanceIndex data.times wS i0))).1.time := by
  rcases chooseFrom_cases opts wS wE
      (collectCandidates data wE (advanceIndex data.times wS i0)) with ⟨_, heq⟩ | hmem
  · rw [heq]; exact hwSE
  · exact mem_collect_winStart_le data wS wE i0 hm _ hmem

/-- If the fallback chose a committed candidate (`isSafety` false) or the
fallback reduction ran, the chosen candidate belongs to the window's
candidate list whenever that list is nonempty; combined: a marker with
nonzero provenance is in the list.  Specifically, when the `isSafety`
flag is `false` the chosen candidate is a collected one. -/
lemma chooseFrom_cut_mem (opts : GenOptions) (wS wE : ℚ) (l : List Candidate)
    (h : (chooseFrom opts wS wE l).2 = false) :
    (chooseFrom opts wS wE l).1 ∈ l := by
  rcases chooseFrom_cases opts wS wE l with ⟨_, heq⟩ | hmem
  · rw [heq] at h; cases h
  · exact hmem

/-! ### Termination of the placement loop -/

/-- The placement loop terminates within the fuel bound as soon as every
iteration advances the cursor by at least `minDuration`; the hypothesis
`hstep` states exactly that about the window's chosen position. -/
lemma genLoop_isSome (data : OnsetData) (opts : GenOptions) (T : ℚ)
    (uuid : ℕ → ℕ)
    (hstep : ∀ cursor : ℚ, ∀ ci : ℕ, cursor < T → cursor + opts.minDuration < T →
      cursor + opts.minDuration ≤
        (chooseFrom opts (cursor + opts.minDuration)
          (min (cursor + opts.maxDuration) T)
          (collectCandidates data (min (cursor + opts.maxDuration) T)
            (advanceIndex data.times (cursor + opts.minDuration) ci))).1.time) :
    ∀ f : ℕ, ∀ cursor : ℚ, ∀ ci k : ℕ, T ≤ cursor + (f : ℚ) * opts.minDuration →
      (genLoop data opts T uuid (f + 1) cursor ci k).isSome := by
  intro f
  induction f with
  | zero =>
    intro cursor ci k hT
    push_cast at hT
    simp only [zero_mul, add_zero] at hT
    simp [genLoop, hT]
  | succ f ih =>
    intro cursor ci k hT
    rw [genLoop]
    by_cases hc : T ≤ cursor
    · simp [hc]
    · by_cases hw : T ≤ cursor + opts.minDuration
      · simp [hc, hw]
      · simp only [if_neg hc, if_neg hw, Option.isSome_map']
        push_neg at hc hw
        refine ih _ _ (k + 1) ?_
        have hadv := hstep cursor ci hc hw
        have : T ≤ cursor + opts.minDuration + (f : ℚ) * opts.minDuration := by
          push_cast at hT
          linarith
        linarith

/-- With monotone timestamps every iteration advances the cursor by at
least `minDuration`. -/
lemma hstep_of_mono (data : OnsetData) (opts : GenOptions) (T : ℚ)
    (hm : MonoTimes data.times) (h01 : opts.minDuration ≤ opts.maxDuration) :
    ∀ cursor : ℚ, ∀ ci : ℕ, cursor < T → cursor + opts.minDuration < T →
      cursor + opts.minDuration ≤
        (chooseFrom opts (cursor + opts.minDuration)
          (min (cursor + opts.maxDuration) T)
          (collectCandidates data (min (cursor + opts.maxDuration) T)
            (advanceIndex data.times (cursor + opts.minDuration) ci))).1.time :=
  fun cursor ci _ hw =>
    chooseFrom_collect_ge data opts _ _ ci hm (le_min (by linarith) (le_of_lt hw))

/-- `genFuel` is enough fuel: `T ≤ ⌈T/minDuration⌉ * minDuration`. -/
lemma genFuel_sufficient (T minD : ℚ) (h0 : 0 < minD) :
    T ≤ ((⌈T / minD⌉.toNat : ℚ)) * minD := by
  have hle : T / minD ≤ (⌈T / minD⌉.toNat : ℚ) := by
    refine le_trans (Int.le_ceil (T / minD)) ?_
    exact_mod_cast Int.self_le_toNat ⌈T / minD⌉
  calc T = (T / minD) * minD := by field_simp
    _ ≤ (⌈T / minD⌉.toNat : ℚ) * minD := by
        exact mul_le_mul_of_nonneg_right hle (le_of_lt h0)

/-- Termination of `generateMarkers` for monotone timestamps. -/
lemma generateMarkers_isSome (data : OnsetData) (opts : GenOptions) (T : ℚ)
    (uuid : ℕ → ℕ) (hm : MonoTimes data.times) (h0 : 0 < opts.minDuration)
    (h01 : opts.minDuration ≤ opts.maxDuration) :
    (generateMarkers data opts T uuid).isSome := by
  unfold generateMarkers genFuel
  rw [Option.isSome_map']
  refine genLoop_isSome data opts T uuid (hstep_of_mono data opts T hm h01) _ 0 0 0 ?_
  simpa using genFuel_sufficient T opts.minDuration h0

/-! ### The window chain of the placement loop -/

/-- Workhorse invariant: the cursor followed by the committed marker times
forms a chain in which each step starts below `totalDuration`, advances by
at least `minDuration` and at most `maxDuration`, and never passes
`totalDuration`. -/
lemma genLoop_chain (data : OnsetData) (opts : GenOptions) (T : ℚ)
    (uuid : ℕ → ℕ) (hm : MonoTimes data.times)
    (h01 : opts.minDuration ≤ opts.maxDuration) :
    ∀ f : ℕ, ∀ cursor : ℚ, ∀ ci k : ℕ, ∀ ms : List Marker,
      genLoop data opts T uuid f cursor ci k = some ms →
      List.Chain (fun a b => a < T ∧ a + opts.minDuration ≤ b ∧
        b ≤ a + opts.maxDuration ∧ b ≤ T) cursor (ms.map Marker.time) := by
  intro f
  induction f with
  | zero =>
    intro cursor ci k ms hms
    rw [genLoop] at hms
    split at hms
    · cases hms; exact List.Chain.nil
    · cases hms
  | succ f ih =>
    intro cursor ci k ms hms
    rw [genLoop] at hms
    by_cases hc : T ≤ cursor
    · rw [if_pos hc] at hms
      cases hms; exact List.Chain.nil
    · by_cases hw : T ≤ cursor + opts.minDuration
      · simp only [if_neg hc, if_pos hw] at hms
        cases hms; exact List.Chain.nil
      · simp only [if_neg hc, if_neg hw] at hms
        push_neg at hc hw
        rcases Option.map_eq_some'.mp hms with ⟨tail, htail, hcons⟩
        subst hcons
        simp only [List.map_cons]
        have hwSE : cursor + opts.minDuration ≤ min (cursor + opts.maxDuration) T :=
          le_min (by linarith) (le_of_lt hw)
        refine List.Chain.cons ⟨hc, ?_, ?_, ?_⟩ (ih _ _ (k + 1) tail htail)
        · exact chooseFrom_collect_ge data opts _ _ ci hm hwSE
        · exact le_trans (chooseFrom_collect_le data opts _ _ _) (min_le_left _ _)
        · exact le_trans (chooseFrom_collect_le data opts _ _ _) (min_le_right _ _)

/-! ### Marker provenance: Cut markers come from candidates -/

/-- Every `Cut` marker committed by the loop carries the strength of a
collected candidate, hence a strength above the noise floor. -/
lemma genLoop_cut_strength (data : OnsetData) (opts : GenOptions) (T : ℚ)
    (uuid : ℕ → ℕ) :
    ∀ f : ℕ, ∀ cursor : ℚ, ∀ ci k : ℕ, ∀ ms : List Marker,
      genLoop data opts T uuid f cursor ci k = some ms →
      ∀ m ∈ ms, m.type = MarkerType.Cut → noiseFloor < m.strength := by
  intro f
  induction f with
  | zero =>
    intro cursor ci k ms hms
    rw [genLoop] at hms
    split at hms
    · cases hms; intro m hm; cases hm
    · cases hms
  | succ f ih =>
    intro cursor ci k ms hms
    rw [genLoop] at hms
    by_cases hc : T ≤ cursor
    · rw [if_pos hc] at hms
      cases hms; intro m hm; cases hm
    · by_cases hw : T ≤ cursor + opts.minDuration
      · simp only [if_neg hc, if_pos hw] at hms
        cases hms; intro m hm; cases hm
      · simp only [if_neg hc, if_neg hw] at hms
        rcases Option.map_eq_some'.mp hms with ⟨tail, htail, hcons⟩
        subst hcons
        intro m hm hcut
        rcases List.mem_cons.mp hm with rfl | hmem
        · set ch := chooseFrom opts (cursor + opts.minDuration)
            (min (cursor + opts.maxDuration) T)
            (collectCandidates data (min (cursor + opts.maxDuration) T)
              (advanceIndex data.times (cursor + opts.minDuration) ci)) with hch
          by_cases hsafe : ch.2
          · simp only [Marker.type] at hcut
            rw [if_pos hsafe] at hcut
            cases hcut
          · simp only [Bool.not_eq_true] at hsafe
            exact mem_collect_strength data _ _ _ (chooseFrom_cut_mem _ _ _ _ hsafe)
        · exact ih _ _ (k + 1) tail htail m hmem hcut

/-! ### Lemmas on the final-marker cleanup -/

lemma cleanup_getLast_none {T : ℚ} {ms : List Marker}
    (h : ms.getLast? = none) : cleanup T ms = ms := by
  unfold cleanup
  rw [h]

lemma cleanup_getLast_some_close {T : ℚ} {ms : List Marker} {m : Marker}
    (h : ms.getLast? = some m) (hd : |m.time - T| < 1/2) :
    cleanup T ms = ms.dropLast := by
  unfold cleanup
  rw [h]
  exact if_pos hd

lemma cleanup_getLast_some_far {T : ℚ} {ms : List Marker} {m : Marker}
    (h : ms.getLast? = some m) (hd : ¬|m.time - T| < 1/2) :
    cleanup T ms = ms := by
  unfold cleanup
  rw [h]
  exact if_neg hd

lemma cleanup_spec (T : ℚ) (ms : List Marker) :
    (ms = [] ∧ cleanup T ms = ms) ∨
    (∃ m, ms.getLast? = some m ∧ |m.time - T| < 1/2 ∧ cleanup T ms = ms.dropLast) ∨
    (∃ m, ms.getLast? = some m ∧ 1/2 ≤ |m.time - T| ∧ cleanup T ms = ms) := by
  cases h : ms.getLast? with
  | none =>
    exact Or.inl ⟨List.getLast?_eq_none_iff.mp h, cleanup_getLast_none h⟩
  | some m =>
    by_cases hd : |m.time - T| < 1/2
    · exact Or.inr (Or.inl ⟨m, rfl, hd, cleanup_getLast_some_close h hd⟩)
    · exact Or.inr (Or.inr ⟨m, rfl, le_of_not_lt hd, cleanup_getLast_some_far h hd⟩)

lemma cleanup_sublist (T : ℚ) (ms : List Marker) : (cleanup T ms).Sublist ms := by
  rcases cleanup_spec T ms with ⟨_, heq⟩ | ⟨_, _, _, heq⟩ | ⟨_, _, _, heq⟩
  · rw [heq]
  · rw [heq]; exact List.dropLast_sublist ms
  · rw [heq]

lemma cleanup_mem (T : ℚ) (ms : List Marker) (m : Marker)
    (h : m ∈ cleanup T ms) : m ∈ ms :=
  (cleanup_sublist T ms).mem h

lemma cleanup_chain {R : Marker → Marker → Prop} (T : ℚ) (ms : List Marker)
    (h : List.Chain' R ms) : List.Chain' R (cleanup T ms) := by
  rcases cleanup_spec T ms with ⟨_, heq⟩ | ⟨_, _, _, heq⟩ | ⟨_, _, _, heq⟩
  · rw [heq]; exact h
  · rw [heq]; exact h.init
  · rw [heq]; exact h

/-- Elements of the cleaned-up list lie strictly below `totalDuration`,
provided every element is `≤ T` and every element with a successor is
`< T`. -/
lemma cleanup_mem_lt (T : ℚ) (ms : List Marker)
    (hle : ∀ m ∈ ms, m.time ≤ T)
    (hlt : ∀ j : ℕ, j + 1 < ms.length → ∀ h : j < ms.length, (ms.get ⟨j, h⟩).time < T) :
    ∀ m ∈ cleanup T ms, m.time < T := by
  rcases cleanup_spec T ms with ⟨hnil, heq⟩ | ⟨m', hlast, hdist, heq⟩ |
      ⟨m', hlast, hdist, heq⟩ <;> rw [heq]
  · subst hnil; intro m hm; cases hm
  · intro m hm
    obtain ⟨j, hj, hget⟩ := List.mem_iff_getElem.mp hm
    have hj' : j < ms.length := by
      have := List.length_dropLast ms
      omega
    have hjs : j + 1 < ms.length := by
      have := List.length_dropLast ms
      omega
    have : ms.dropLast[j] = ms[j] := List.getElem_dropLast ms j hj
    rw [this] at hget
    subst hget
    simpa using hlt j hjs hj'
  · intro m hm
    obtain ⟨j, hj, hget⟩ := List.mem_iff_getElem.mp hm
    by_cases hjs : j + 1 < ms.length
    · subst hget; simpa using hlt j hjs hj
    · have hjeq : j = ms.length - 1 := by omega
      have hlast' : ms.getLast? = some ms[j] := by
        rw [List.getLast?_eq_getElem?, hjeq.symm, List.getElem?_eq_getElem hj]
      rw [hlast] at hlast'
      have hmm' : m' = m := by rw [← hget]; exact Option.some_injective _ hlast'
      subst hmm'
      have h1 : m'.time ≤ T := hle m' (hget ▸ List.getElem_mem hj)
      have h2 : |m'.time - T| = T - m'.time := by
        rw [abs_of_nonpos (by linarith)]; ring
      rw [h2] at hdist
      linarith

/-- Every element of a window chain is at most `T`. -/
lemma chain_mem_le (T minD maxD : ℚ) :
    ∀ (l : List ℚ) (a : ℚ),
      List.Chain (fun x y => x < T ∧ x + minD ≤ y ∧ y ≤ x + maxD ∧ y ≤ T) a l →
      ∀ b ∈ l, b ≤ T := by
  intro l
  induction l with
  | nil => intro a _ b hb; cases hb
  | cons c cs ih =>
    intro a hch b hb
    rcases List.chain_cons.mp hch with ⟨hr, htail⟩
    rcases List.mem_cons.mp hb with rfl | hmem
    · exact hr.2.2.2
    · exact ih c htail b hmem

/-! ### The fallback reduction picks the last strength maximum -/

/-- Full characterization of `reduceStrongest`: either the incumbent
survives (everything in the list being strictly weaker), or the result is
an element of the list, at least as strong as the incumbent and
everything before it, and strictly stronger than everything after it —
i.e. the *last* element attaining the maximum. -/
lemma reduceStrongest_spec :
    ∀ (l : List Candidate) (prev : Candidate),
      (reduceStrongest prev l = prev ∧ ∀ d ∈ l, d.strength < prev.strength) ∨
      (∃ pre post, l = pre ++ reduceStrongest prev l :: post ∧
        prev.strength ≤ (reduceStrongest prev l).strength ∧
        (∀ d ∈ pre, d.strength ≤ (reduceStrongest prev l).strength) ∧
        (∀ d ∈ post, d.strength < (reduceStrongest prev l).strength)) := by
  intro l
  induction l with
  | nil => intro prev; exact Or.inl ⟨rfl, by simp⟩
  | cons c rest ih =>
    intro prev
    simp only [reduceStrongest]
    by_cases hc : c.strength < prev.strength
    · rw [if_pos hc]
      rcases ih prev with ⟨heq, hall⟩ | ⟨pre, post, hdec, hge, hpre, hpost⟩
      · refine Or.inl ⟨heq, ?_⟩
        intro d hd
        rcases List.mem_cons.mp hd with rfl | hd2
        · exact hc
        · exact hall d hd2
      · refine Or.inr ⟨c :: pre, post, by simp [← hdec], hge, ?_, hpost⟩
        intro d hd
        rcases List.mem_cons.mp hd with rfl | hd2
        · exact le_trans (le_of_lt hc) hge
        · exact hpre d hd2
    · rw [if_neg hc]
      push_neg at hc
      rcases ih c with ⟨heq, hall⟩ | ⟨pre, post, hdec, hge, hpre, hpost⟩
      · rw [heq]
        exact Or.inr ⟨[], rest, by simp, hc, by simp, hall⟩
      · refine Or.inr ⟨c :: pre, post, by simp [← hdec], le_trans hc hge, ?_, hpost⟩
        intro d hd
        rcases List.mem_cons.mp hd with rfl | hd2
        · exact hge
        · exact hpre d hd2

/-! ### Id-independence of the placement loop -/

/-- The markers committed by the loop do not depend on the id supply
except through the `id` field. -/
lemma genLoop_markerData (data : OnsetData) (opts : GenOptions) (T : ℚ)
    (u1 u2 : ℕ → ℕ) :
    ∀ f : ℕ, ∀ cursor : ℚ, ∀ ci k1 k2 : ℕ,
      (genLoop data opts T u1 f cursor ci k1).map (List.map markerData) =
      (genLoop data opts T u2 f cursor ci k2).map (List.map markerData) := by
  intro f
  induction f with
  | zero => intro cursor ci k1 k2; rw [genLoop, genLoop]
  | succ f ih =>
    intro cursor ci k1 k2
    rw [genLoop, genLoop]
    by_cases hc : T ≤ cursor
    · rw [if_pos hc, if_pos hc]
    · by_cases hw : T ≤ cursor + opts.minDuration
      · simp only [if_neg hc, if_pos hw]
      · simp only [if_neg hc, if_neg hw]
        have key := ih ((chooseFrom opts (cursor + opts.minDuration)
          (min (cursor + opts.maxDuration) T)
          (collectCandidates data (min (cursor + opts.maxDuration) T)
            (advanceIndex data.times (cursor + opts.minDuration) ci))).1.time)
          (advanceIndex data.times (cursor + opts.minDuration) ci) (k1 + 1) (k2 + 1)
        cases h1 : genLoop data opts T u1 f
            ((chooseFrom opts (cursor + opts.minDuration)
              (min (cursor + opts.maxDuration) T)
              (collectCandidates data (min (cursor + opts.maxDuration) T)
                (advanceIndex data.times (cursor + opts.minDuration) ci))).1.time)
            (advanceIndex data.times (cursor + opts.minDuration) ci) (k1 + 1) with
        | none =>
          rw [h1] at key
          cases h2 : genLoop data opts T u2 f
              ((chooseFrom opts (cursor + opts.minDuration)
                (min (cursor + opts.maxDuration) T)
                (collectCandidates data (min (cursor + opts.maxDuration) T)
                  (advanceIndex data.times (cursor + opts.minDuration) ci))).1.time)
              (advanceIndex data.times (cursor + opts.minDuration) ci) (k2 + 1) with
          | none => simp
          | some l2 => rw [h2] at key; simp at key
        | some l1 =>
          rw [h1] at key
          cases h2 : genLoop data opts T u2 f
              ((chooseFrom opts (cursor + opts.minDuration)
                (min (cursor + opts.maxDuration) T)
                (collectCandidates data (min (cursor + opts.maxDuration) T)
                  (advanceIndex data.times (cursor + opts.minDuration) ci))).1.time)
              (advanceIndex data.times (cursor + opts.minDuration) ci) (k2 + 1) with
          | none => rw [h2] at key; simp at key
          | some l2 =>
            rw [h2] at key
            simp only [Option.map_some'] at key
            simp [markerData, Option.some_injective _ key]

/-- The cleanup step only reads the id-free content, so it commutes with
projecting ids away. -/
lemma cleanup_markerData (T : ℚ) (l1 l2 : List Marker)
    (h : l1.map markerData = l2.map markerData) :
    (cleanup T l1).map markerData = (cleanup T l2).map markerData := by
  have hlast : l1.getLast?.map markerData = l2.getLast?.map markerData := by
    rw [← List.getLast?_map, ← List.getLast?_map, h]
  cases h1 : l1.getLast? with
  | none =>
    cases h2 : l2.getLast? with
    | none => rw [cleanup_getLast_none h1, cleanup_getLast_none h2]; exact h
    | some m2 => rw [h1, h2] at hlast; simp at hlast
  | some m1 =>
    cases h2 : l2.getLast? with
    | none => rw [h1, h2] at hlast; simp at hlast
    | some m2 =>
      rw [h1, h2] at hlast
      simp only [Option.map_some'] at hlast
      have htime : m1.time = m2.time :=
        congrArg Prod.fst (Option.some_injective _ hlast)
      by_cases hd : |m1.time - T| < 1/2
      · rw [cleanup_getLast_some_close h1 hd,
          cleanup_getLast_some_close h2 (htime ▸ hd),
          List.map_dropLast, List.map_dropLast, h]
      · rw [cleanup_getLast_some_far h1 hd,
          cleanup_getLast_some_far h2 (htime ▸ hd)]
        exact h

/-! ### Behaviour on envelopes that never exceed the noise floor -/

/-- When no envelope value exceeds the noise floor, the candidate scan
collects nothing. -/
lemma collectFrom_nil_of_low (data : OnsetData) (wE : ℚ)
    (hlow : ∀ v ∈ data.values, v ≤ noiseFloor) :
    ∀ f i, collectFrom data wE f i = [] := by
  intro f
  induction f with
  | zero => intro i; rfl
  | succ f ih =>
    intro i
    simp only [collectFrom]
    split
    · have hnot : isLocalCandidate data.values i = false := by
        by_contra hcon
        rw [Bool.not_eq_false] at hcon
        obtain ⟨_, h2, _, _, h5⟩ := (isLocalCandidate_iff data.values i).mp hcon
        have hmem : data.values.getD i 0 ∈ data.values := by
          rw [List.getD_eq_getElem _ _ (by omega)]
          exact List.getElem_mem (by omega)
        exact absurd (hlow _ hmem) (not_le.mpr h5)
      rw [hnot]
      simpa using ih (i + 1)
    · rfl

lemma collectCandidates_nil_of_low (data : OnsetData) (wE : ℚ)
    (hlow : ∀ v ∈ data.values, v ≤ noiseFloor) (i : ℕ) :
    collectCandidates data wE i = [] :=
  collectFrom_nil_of_low data wE hlow data.times.length i

/-- On a low envelope every committed marker is a strength-0 `Safety`
marker placed at `winEnd = min (cursor + maxDuration) totalDuration`. -/
lemma genLoop_low (data : OnsetData) (opts : GenOptions) (T : ℚ)
    (uuid : ℕ → ℕ) (hlow : ∀ v ∈ data.values, v ≤ noiseFloor) :
    ∀ f : ℕ, ∀ cursor : ℚ, ∀ ci k : ℕ, ∀ ms : List Marker,
      genLoop data opts T uuid f cursor ci k = some ms →
      (∀ m ∈ ms, m.type = MarkerType.Safety ∧ m.strength = 0) ∧
      List.Chain (fun a b => a < T ∧ b = min (a + opts.maxDuration) T) cursor
        (ms.map Marker.time) := by
  intro f
  induction f with
  | zero =>
    intro cursor ci k ms hms
    rw [genLoop] at hms
    split at hms
    · cases hms
      exact ⟨fun m hm => absurd hm (List.not_mem_nil m), List.Chain.nil⟩
    · cases hms
  | succ f ih =>
    intro cursor ci k ms hms
    rw [genLoop] at hms
    by_cases hc : T ≤ cursor
    · rw [if_pos hc] at hms
      cases hms
      exact ⟨fun m hm => absurd hm (List.not_mem_nil m), List.Chain.nil⟩
    · by_cases hw : T ≤ cursor + opts.minDuration
      · simp only [if_neg hc, if_pos hw] at hms
        cases hms
        exact ⟨fun m hm => absurd hm (List.not_mem_nil m), List.Chain.nil⟩
      · simp only [if_neg hc, if_neg hw,
          collectCandidates_nil_of_low data _ hlow, chooseFrom] at hms
        rcases Option.map_eq_some'.mp hms with ⟨tail, htail, hcons⟩
        subst hcons
        obtain ⟨ihall, ihchain⟩ := ih _ _ (k + 1) tail htail
        constructor
        · intro m hm
          rcases List.mem_cons.mp hm with rfl | hmem
          · exact ⟨rfl, rfl⟩
          · exact ihall m hmem
        · simp only [List.map_cons]
          exact List.Chain.cons ⟨not_le.mp hc, rfl⟩ ihchain

/-- On a low envelope the chosen position is always `winEnd`, which is at
least `winStart`, so the loop makes progress and terminates. -/
lemma genLoop_low_isSome (data : OnsetData) (opts : GenOptions) (T : ℚ)
    (uuid : ℕ → ℕ) (hlow : ∀ v ∈ data.values, v ≤ noiseFloor)
    (h0 : 0 < opts.minDuration) (h01 : opts.minDuration ≤ opts.maxDuration) :
    (generateMarkers data opts T uuid).isSome := by
  unfold generateMarkers genFuel
  rw [Option.isSome_map']
  refine genLoop_isSome data opts T uuid ?_ _ 0 0 0 ?_
  · intro cursor ci hc hw
    rw [collectCandidates_nil_of_low data _ hlow]
    simp only [chooseFrom]
    exact le_min (by linarith) (le_of_lt hw)
  · simpa using genFuel_sufficient T opts.minDuration h0

/-- Chain' on the cleaned-up list, from pairwise facts on the raw list:
`S` holds for a consecutive pair as soon as its second element is known
to lie strictly below `T`. -/
lemma cleanup_chain_of_get (T : ℚ) (ms : List Marker)
    (S : Marker → Marker → Prop)
    (hle : ∀ m ∈ ms, m.time ≤ T)
    (hlt : ∀ j : ℕ, j + 1 < ms.length → ∀ hj : j < ms.length,
      (ms.get ⟨j, hj⟩).time < T)
    (hpair : ∀ j : ℕ, ∀ hj1 : j + 1 < ms.length,
      (ms.get ⟨j + 1, hj1⟩).time < T →
      S (ms.get ⟨j, by omega⟩) (ms.get ⟨j + 1, hj1⟩)) :
    List.Chain' S (cleanup T ms) := by
  rcases cleanup_spec T ms with ⟨hnil, heq⟩ | ⟨m1, hlast, hdist, heq⟩ |
      ⟨m1, hlast, hdist, heq⟩ <;> rw [heq]
  · subst hnil; exact List.chain'_nil
  · rw [List.chain'_iff_get]
    intro i hi
    simp only [List.length_dropLast] at hi
    have hi1 : i + 1 < ms.length := by omega
    have hi2 : i + 1 + 1 < ms.length := by omega
    have e1 : ms.dropLast.get ⟨i, by simp [List.length_dropLast]; omega⟩ =
        ms.get ⟨i, by omega⟩ := by
      simp [List.getElem_dropLast]
    have e2 : ms.dropLast.get ⟨i + 1, by simp [List.length_dropLast]; omega⟩ =
        ms.get ⟨i + 1, hi1⟩ := by
      simp [List.getElem_dropLast]
    rw [List.get_eq_getElem, List.get_eq_getElem] at e1 e2 ⊢
    rw [e1, e2]
    exact hpair i hi1 (hlt (i + 1) hi2 hi1)
  · rw [List.chain'_iff_get]
    intro i hi
    have hi1 : i + 1 < ms.length := by omega
    by_cases hi2 : i + 1 + 1 < ms.length
    · exact hpair i hi1 (hlt (i + 1) hi2 hi1)
    · have hieq : i + 1 = ms.length - 1 := by omega
      have hlast2 : ms.getLast? = some ms[i + 1] := by
        rw [List.getLast?_eq_getElem?, ← hieq, List.getElem?_eq_getElem hi1]
      rw [hlast] at hlast2
      have hm1 : m1 = ms[i + 1] := Option.some_injective _ hlast2
      have hltT : (ms.get ⟨i + 1, hi1⟩).time < T := by
        have h1 : ms[i + 1].time ≤ T := hle _ (List.getElem_mem hi1)
        have h2 : |ms[i + 1].time - T| = T - ms[i + 1].time := by
          rw [abs_of_nonpos (by linarith)]; ring
        rw [hm1] at hdist
        rw [h2] at hdist
        simpa using by linarith
      exact hpair i hi1 hltT

/-- Every element of a low-envelope chain is at most `T`. -/
lemma chain_mem_le_min (T maxD : ℚ) :
    ∀ (l : List ℚ) (a : ℚ),
      List.Chain (fun x y => x < T ∧ y = min (x + maxD) T) a l →
      ∀ b ∈ l, b ≤ T := by
  intro l
  induction l with
  | nil => intro a _ b hb; cases hb
  | cons c cs ih =>
    intro a hch b hb
    rcases List.chain_cons.mp hch with ⟨hr, htail⟩
    rcases List.mem_cons.mp hb with rfl | hmem
    · rw [hr.2]; exact min_le_right _ _
    · exact ih c htail b hmem

/-! ### The bisection wrapper -/

/-- Invariant of the bisection loop: the returned `bestMarkers` is either
the earliest evaluated result strictly beating the incoming `minDiff` and
minimal among all evaluated results, or the incoming incumbent when
nothing beat `minDiff`; an exact hit is always the last evaluation and is
returned. -/
lemma gmbcLoop_spec (data : OnsetData) (target : ℤ)
    (duration minD maxD : ℚ) (uuids : ℕ → ℕ → ℕ) :
    ∀ r i : ℕ, ∀ low high : ℚ, ∀ bestM : List Marker, ∀ minDiff : Option ℤ,
      (∀ d : ℤ, minDiff = some d → 0 < d) →
      ∀ tr bs,
        gmbcLoop data target duration minD maxD uuids i r low high bestM minDiff
          = some (tr, bs) →
        tr.length ≤ r ∧
        ((∃ pre s post, tr = pre ++ (s, bs) :: post ∧
            ltInf (markerDiff target bs) minDiff = true ∧
            (∀ p ∈ pre, markerDiff target bs < markerDiff target p.2) ∧
            (∀ p ∈ post, markerDiff target bs ≤ markerDiff target p.2)) ∨
          (bs = bestM ∧ ∀ p ∈ tr, ltInf (markerDiff target p.2) minDiff = false)) ∧
        (∀ p ∈ tr, (p.2.length : ℤ) = target → tr.getLast? = some p ∧ bs = p.2) ∧
        (0 < r → tr ≠ []) := by
  intro r
  induction r with
  | zero =>
    intro i low high bestM minDiff hpos tr bs h
    rw [gmbcLoop] at h
    injection h with h2
    injection h2 with htr hbs
    subst htr
    subst hbs
    refine ⟨by simp, Or.inr ⟨rfl, by simp⟩, by simp, by simp⟩
  | succ r ih =>
    intro i low high bestM minDiff hpos tr bs h
    rw [gmbcLoop] at h
    cases hgen : generateMarkers data ⟨minD, maxD, (low + high) / 2⟩ duration
        (uuids i) with
    | none => rw [hgen] at h; cases h
    | some result =>
      rw [hgen] at h
      by_cases hexact : (result.length : ℤ) = target
      · have hd0 : markerDiff target result = 0 := by
          rw [markerDiff, hexact, sub_self, abs_zero]
        have hcond : ltInf (markerDiff target result) minDiff = true := by
          rw [hd0]
          cases hmd : minDiff with
          | none => rfl
          | some d => simp [ltInf, hpos d hmd]
        simp only [if_pos hexact, hcond, if_true] at h
        injection h with h2
        injection h2 with htr hbs
        subst htr
        subst hbs
        refine ⟨by simp, ?_, ?_, fun _ => by simp⟩
        · refine Or.inl ⟨[], (low + high) / 2, [], by simp, ?_, by simp, by simp⟩
          exact hcond
        · intro p hp hplen
          rcases List.mem_singleton.mp hp with rfl
          exact ⟨rfl, rfl⟩
      · simp only [if_neg hexact] at h
        have hd1pos : 0 < markerDiff target result :=
          abs_pos.mpr (sub_ne_zero.mpr hexact)
        by_cases hcond : ltInf (markerDiff target result) minDiff = true
        · simp only [hcond, if_true] at h
          obtain ⟨⟨tr2, bs2⟩, hrec, heq⟩ := Option.map_eq_some'.mp h
          simp only at heq
          injection heq with htr hbs
          subst htr
          subst hbs
          have hpos2 : ∀ d : ℤ, (some (markerDiff target result) : Option ℤ)
              = some d → 0 < d := by
            intro d hd
            cases hd
            exact hd1pos
          obtain ⟨hlen, hAB, hEH, _⟩ := ih (i + 1) _ _ result
            (some (markerDiff target result)) hpos2 tr2 bs2 hrec
          refine ⟨by simpa using Nat.succ_le_succ hlen, ?_, ?_, fun _ => by simp⟩
          · rcases hAB with ⟨pre, s, post, hdec, hlt, hpre, hpost⟩ |
                ⟨hbs2, hfalse⟩
            · refine Or.inl ⟨((low + high) / 2, result) :: pre, s, post,
                by simp [hdec], ?_, ?_, hpost⟩
              · have hlt2 : markerDiff target bs2 < markerDiff target result := by
                  simpa [ltInf] using hlt
                cases hmd : minDiff with
                | none => rfl
                | some d =>
                  rw [hmd] at hcond
                  have h3 : markerDiff target result < d := by
                    simpa [ltInf] using hcond
                  simp only [ltInf, decide_eq_true_eq]
                  exact lt_trans hlt2 h3
              · intro p hp
                rcases List.mem_cons.mp hp with rfl | hp2
                · simpa [ltInf] using hlt
                · exact hpre p hp2
            · subst hbs2
              refine Or.inl ⟨[], (low + high) / 2, tr2, by simp, hcond, by simp, ?_⟩
              intro p hp
              have h4 := hfalse p hp
              simp only [ltInf, decide_eq_false_iff_not, not_lt] at h4
              exact h4
          · intro p hp hplen
            rcases List.mem_cons.mp hp with rfl | hp2
            · exact absurd hplen hexact
            · obtain ⟨hlast, hbs⟩ := hEH p hp2 hplen
              refine ⟨?_, hbs⟩
              cases tr2 with
              | nil => exact absurd (List.not_mem_nil p) (fun hcon => hcon hp2)
              | cons x xs => rw [List.getLast?_cons_cons, hlast]
        · simp only [Bool.not_eq_true] at hcond
          simp only [hcond, Bool.false_eq_true, if_false] at h
          obtain ⟨⟨tr2, bs2⟩, hrec, heq⟩ := Option.map_eq_some'.mp h
          simp only at heq
          injection heq with htr hbs
          subst htr
          subst hbs
          obtain ⟨hlen, hAB, hEH, _⟩ := ih (i + 1) _ _ bestM minDiff hpos tr2 bs2 hrec
          refine ⟨by simpa using Nat.succ_le_succ hlen, ?_, ?_, fun _ => by simp⟩
          · rcases hAB with ⟨pre, s, post, hdec, hlt, hpre, hpost⟩ |
                ⟨hbs2, hfalse⟩
            · refine Or.inl ⟨((low + high) / 2, result) :: pre, s, post,
                by simp [hdec], hlt, ?_, hpost⟩
              intro p hp
              rcases List.mem_cons.mp hp with rfl | hp2
              · cases hmd : minDiff with
                | none => rw [hmd] at hcond; simp [ltInf] at hcond
                | some d =>
                  rw [hmd] at hcond hlt
                  have h5 : d ≤ markerDiff target result := by
                    simpa [ltInf, not_lt] using hcond
                  have h6 : markerDiff target bs2 < d := by
                    simpa [ltInf] using hlt
                  exact lt_of_lt_of_le h6 h5
              · exact hpre p hp2
            · refine Or.inr ⟨hbs2, ?_⟩
              intro p hp
              rcases List.mem_cons.mp hp with rfl | hp2
              · exact hcond
              · exact hfalse p hp2
          · intro p hp hplen
            rcases List.mem_cons.mp hp with rfl | hp2
            · exact absurd hplen hexact
            · obtain ⟨hlast, hbs⟩ := hEH p hp2 hplen
              refine ⟨?_, hbs⟩
              cases tr2 with
              | nil => exact absurd (List.not_mem_nil p) (fun hcon => hcon hp2)
              | cons x xs => rw [List.getLast?_cons_cons, hlast]

/-! ### Sensitivity monotonicity: one-window domination -/

/-- Window membership (completeness direction): an interior sample in
`[winStart, winEnd]` above the noise floor is collected, provided the
indices skipped before `ci` all lie strictly below `winStart`. -/
lemma collect_mem_of_window (data : OnsetData) (wS wE : ℚ) (ci : ℕ)
    (hm : MonoTimes data.times)
    (hinv : ∀ j : ℕ, j < ci → data.times.getD j 0 < wS) (i : ℕ)
    (hilen : i < data.times.length) (hwS : wS ≤ data.times.getD i 0)
    (hwE : data.times.getD i 0 ≤ wE)
    (hloc : isLocalCandidate data.values i = true) :
    (⟨(i : ℤ), data.times.getD i 0, data.values.getD i 0⟩ : Candidate) ∈
      collectCandidates data wE (advanceIndex data.times wS ci) := by
  have hai : advanceIndex data.times wS ci ≤ i := by
    by_contra hlt
    push_neg at hlt
    rcases lt_or_le i ci with hici | hici
    · exact absurd hwS (not_le.mpr (hinv i hici))
    · exact absurd hwS (not_le.mpr (advanceIndex_below data.times wS ci i hici hlt))
  exact collectFrom_complete data wE hm data.times.length
    (advanceIndex data.times wS ci) i hai (by omega) hilen hwE hloc

/-- The head of a nonempty candidate list is earliest in time. -/
lemma collect_head_min (data : OnsetData) (wE : ℚ) (hm : MonoTimes data.times)
    (i : ℕ) (c : Candidate) (rest : List Candidate)
    (h : collectCandidates data wE i = c :: rest) :
    ∀ d ∈ c :: rest, c.time ≤ d.time := by
  have hpw := collectFrom_pairwise data wE hm data.times.length i
  rw [collectCandidates] at h
  rw [h] at hpw
  intro d hd
  rcases List.mem_cons.mp hd with rfl | hd2
  · exact le_rfl
  · exact (List.pairwise_cons.mp hpw).1 d hd2

/-- At sensitivity `1` the threshold is `0`, so any candidate with
nonnegative strength passes. -/
lemma desperationPasses_sens_one (opts : GenOptions)
    (hs : opts.sensitivity = 1) (wS wE : ℚ) (c : Candidate)
    (hc : 0 ≤ c.strength) :
    desperationPasses opts wS wE c = true := by
  unfold desperationPasses powCmpLe
  rw [hs]
  norm_num [hc]

/-- At sensitivity `1` the first candidate (having nonnegative strength)
is always chosen as a `Cut`. -/
lemma chooseFrom_sens_one (opts : GenOptions) (hs : opts.sensitivity = 1)
    (wS wE : ℚ) (c : Candidate) (rest : List Candidate)
    (hc : 0 ≤ c.strength) :
    chooseFrom opts wS wE (c :: rest) = (c, false) := by
  have hpass := desperationPasses_sens_one opts hs wS wE c hc
  simp [chooseFrom, selectCandidate, hpass]

/-- One-window domination: from a cursor at most that of the
sensitivity-`s0` run, the sensitivity-`1` run chooses a position at most
that chosen by the other run. -/
lemma step_dom (data : OnsetData) (minD maxD s0 T : ℚ)
    (hm : MonoTimes data.times) (h01 : minD ≤ maxD)
    (c1 c0 : ℚ) (i1 i0 : ℕ) (hle : c1 ≤ c0) (hw1 : c1 + minD < T)
    (hInv : ∀ j : ℕ, j < i1 → data.times.getD j 0 < c1 + minD) :
    (chooseFrom ⟨minD, maxD, 1⟩ (c1 + minD) (min (c1 + maxD) T)
      (collectCandidates data (min (c1 + maxD) T)
        (advanceIndex data.times (c1 + minD) i1))).1.time ≤
    (chooseFrom ⟨minD, maxD, s0⟩ (c0 + minD) (min (c0 + maxD) T)
      (collectCandidates data (min (c0 + maxD) T)
        (advanceIndex data.times (c0 + minD) i0))).1.time := by
  have hwEle : min (c1 + maxD) T ≤ min (c0 + maxD) T :=
    min_le_min (by linarith) le_rfl
  rcases chooseFrom_cases ⟨minD, maxD, s0⟩ (c0 + minD) (min (c0 + maxD) T)
      (collectCandidates data (min (c0 + maxD) T)
        (advanceIndex data.times (c0 + minD) i0)) with ⟨_, heq0⟩ | hmem0
  · rw [heq0]
    exact le_trans (chooseFrom_collect_le data ⟨minD, maxD, 1⟩ _ _ _) hwEle
  · obtain ⟨j, _, hjlen, hjwE, hjloc, hjc⟩ :=
      mem_collectCandidates data (min (c0 + maxD) T)
        (advanceIndex data.times (c0 + minD) i0) _ hmem0
    have hjwS : c0 + minD ≤ data.times.getD j 0 := by
      have := mem_collect_winStart_le data (c0 + minD) (min (c0 + maxD) T)
        i0 hm _ hmem0
      rw [hjc] at this
      exact this
    rw [hjc]
    rcases le_or_lt (data.times.getD j 0) (min (c1 + maxD) T) with hjin | hjout
    · -- the chosen candidate of the s0-run also lies in the window of the
      -- sensitivity-1 run, whose first candidate is therefore no later
      have hmem1 : (⟨(j : ℤ), data.times.getD j 0, data.values.getD j 0⟩ :
          Candidate) ∈ collectCandidates data (min (c1 + maxD) T)
            (advanceIndex data.times (c1 + minD) i1) :=
        collect_mem_of_window data (c1 + minD) (min (c1 + maxD) T) i1 hm hInv j
          hjlen (le_trans (by linarith) hjwS) hjin hjloc
      cases hcol : collectCandidates data (min (c1 + maxD) T)
          (advanceIndex data.times (c1 + minD) i1) with
      | nil => rw [hcol] at hmem1; cases hmem1
      | cons c rest =>
        have hc0 : (0 : ℚ) ≤ c.strength := by
          have := mem_collect_strength data _ _ c
            (by rw [hcol]; exact List.mem_cons_self c rest)
          rw [noiseFloor] at this
          linarith
        rw [chooseFrom_sens_one ⟨minD, maxD, 1⟩ rfl
          (c1 + minD) (min (c1 + maxD) T) c rest hc0]
        rw [hcol] at hmem1
        exact collect_head_min data (min (c1 + maxD) T) hm _ c rest hcol _ hmem1
    · exact le_trans
        (le_trans (chooseFrom_collect_le data ⟨minD, maxD, 1⟩ _ _ _) (le_of_lt hjout))
        le_rfl

/-- Pointwise domination: with the same fuel and a cursor at most that of
the sensitivity-`s0` run, the sensitivity-`1` run commits at least as many
markers, each no later than the corresponding marker of the other run. -/
lemma genLoop_dom (data : OnsetData) (minD maxD s0 T : ℚ)
    (u1 u0 : ℕ → ℕ) (hm : MonoTimes data.times) (h0 : 0 < minD)
    (h01 : minD ≤ maxD) :
    ∀ f : ℕ, ∀ c1 c0 : ℚ, ∀ i1 i0 k1 k0 : ℕ,
      c1 ≤ c0 →
      (∀ j : ℕ, j < i1 → data.times.getD j 0 < c1 + minD) →
      ∀ ms1 ms0 : List Marker,
        genLoop data ⟨minD, maxD, 1⟩ T u1 f c1 i1 k1 = some ms1 →
        genLoop data ⟨minD, maxD, s0⟩ T u0 f c0 i0 k0 = some ms0 →
        ms0.length ≤ ms1.length ∧
        ∀ j : ℕ, j < ms0.length →
          (ms1.getD j default).time ≤ (ms0.getD j default).time := by
  intro f
  induction f with
  | zero =>
    intro c1 c0 i1 i0 k1 k0 hle hInv ms1 ms0 h1 h0m
    rw [genLoop] at h1 h0m
    split at h1
    · next hc1 =>
      cases h1
      rw [if_pos (le_trans hc1 hle)] at h0m
      cases h0m
      exact ⟨le_rfl, fun j hj => absurd hj (by simp)⟩
    · cases h1
  | succ f ih =>
    intro c1 c0 i1 i0 k1 k0 hle hInv ms1 ms0 h1 h0m
    rw [genLoop] at h1 h0m
    by_cases hc1 : T ≤ c1
    · rw [if_pos hc1] at h1
      cases h1
      rw [if_pos (le_trans hc1 hle)] at h0m
      cases h0m
      exact ⟨le_rfl, fun j hj => absurd hj (by simp)⟩
    · by_cases hw1 : T ≤ c1 + minD
      · simp only [if_neg hc1, if_pos hw1] at h1
        cases h1
        by_cases hc0 : T ≤ c0
        · rw [if_pos hc0] at h0m
          cases h0m
          exact ⟨le_rfl, fun j hj => absurd hj (by simp)⟩
        · have hw0 : T ≤ c0 + minD := le_trans hw1 (by linarith)
          simp only [if_neg hc0, if_pos hw0] at h0m
          cases h0m
          exact ⟨le_rfl, fun j hj => absurd hj (by simp)⟩
      · by_cases hc0 : T ≤ c0
        · rw [if_pos hc0] at h0m
          cases h0m
          exact ⟨Nat.zero_le _, fun j hj => absurd hj (by simp)⟩
        · by_cases hw0 : T ≤ c0 + minD
          · simp only [if_neg hc0, if_pos hw0] at h0m
            cases h0m
            exact ⟨Nat.zero_le _, fun j hj => absurd hj (by simp)⟩
          · simp only [if_neg hc1, if_neg hw1] at h1
            simp only [if_neg hc0, if_neg hw0] at h0m
            obtain ⟨tail1, htail1, hcons1⟩ := Option.map_eq_some'.mp h1
            obtain ⟨tail0, htail0, hcons0⟩ := Option.map_eq_some'.mp h0m
            subst hcons1
            subst hcons0
            push_neg at hw1 hw0
            have hstep := step_dom data minD maxD s0 T hm h01 c1 c0 i1 i0
              hle hw1 hInv
            have hge1 : c1 + minD ≤ (chooseFrom ⟨minD, maxD, 1⟩ (c1 + minD)
                (min (c1 + maxD) T) (collectCandidates data (min (c1 + maxD) T)
                  (advanceIndex data.times (c1 + minD) i1))).1.time :=
              chooseFrom_collect_ge data ⟨minD, maxD, 1⟩ (c1 + minD)
                (min (c1 + maxD) T) i1 hm
                (le_min (by linarith) (le_of_lt hw1))
            have hInv2 : ∀ j : ℕ,
                j < advanceIndex data.times (c1 + minD) i1 →
                data.times.getD j 0 <
                  (chooseFrom ⟨minD, maxD, 1⟩ (c1 + minD) (min (c1 + maxD) T)
                    (collectCandidates data (min (c1 + maxD) T)
                      (advanceIndex data.times (c1 + minD) i1))).1.time + minD := by
              intro j hj
              rcases lt_or_le j i1 with hj1 | hj1
              · exact lt_of_lt_of_le (hInv j hj1) (by linarith)
              · exact lt_of_lt_of_le
                  (advanceIndex_below data.times (c1 + minD) i1 j hj1 hj)
                  (by linarith)
            obtain ⟨hlen, hdom⟩ := ih _ _ _ _ (k1 + 1) (k0 + 1) hstep hInv2
              tail1 tail0 htail1 htail0
            refine ⟨by simpa using Nat.succ_le_succ hlen, ?_⟩
            intro j hj
            cases j with
            | zero => simpa using hstep
            | succ j =>
              simp only [List.getD_cons_succ]
              exact hdom j (by simpa using hj)

/-- Count domination survives the final-marker cleanup. -/
lemma cleanup_length_dom (T : ℚ) (l1 l0 : List Marker)
    (hlen : l0.length ≤ l1.length)
    (hdom : ∀ j : ℕ, j < l0.length →
      (l1.getD j default).time ≤ (l0.getD j default).time)
    (hle1 : ∀ m ∈ l1, m.time ≤ T) (hle0 : ∀ m ∈ l0, m.time ≤ T) :
    (cleanup T l0).length ≤ (cleanup T l1).length := by
  have hc0le : (cleanup T l0).length ≤ l0.length :=
    (cleanup_sublist T l0).length_le
  have hc1ge : l1.length - 1 ≤ (cleanup T l1).length := by
    rcases cleanup_spec T l1 with ⟨_, heq⟩ | ⟨_, _, _, heq⟩ | ⟨_, _, _, heq⟩ <;>
      rw [heq] <;> simp [List.length_dropLast] <;> omega
  rcases Nat.lt_or_ge l0.length l1.length with hlt | hge
  · exact le_trans hc0le (le_trans (by omega) hc1ge)
  · have heql : l0.length = l1.length := by omega
    rcases Nat.eq_zero_or_pos l0.length with hzero | hpos
    · rw [List.length_eq_zero.mp hzero]
      simp [cleanup]
    · rcases cleanup_spec T l1 with ⟨hnil, _⟩ | ⟨m1, hlast1, hdist1, heq1⟩ |
          ⟨_, _, _, heq1⟩
      · rw [hnil] at heql
        simp only [List.length_nil] at heql
        omega
      · -- the sensitivity-1 run drops its last marker; show the other
        -- run drops its own as well
        have hn1 : 0 < l1.length := by omega
        have hget1 : l1.getLast? = some (l1.getD (l1.length - 1) default) := by
          rw [List.getLast?_eq_getElem?, List.getElem?_eq_getElem (by omega),
            List.getD_eq_getElem _ _ (by omega)]
        rw [hlast1] at hget1
        have hm1 : m1 = l1.getD (l1.length - 1) default :=
          Option.some_injective _ hget1
        have hget0 : l0.getLast? = some (l0.getD (l0.length - 1) default) := by
          rw [List.getLast?_eq_getElem?, List.getElem?_eq_getElem (by omega),
            List.getD_eq_getElem _ _ (by omega)]
        have hmem0 : l0.getD (l0.length - 1) default ∈ l0 := by
          rw [List.getD_eq_getElem _ _ (by omega)]
          exact List.getElem_mem (by omega)
        have hmem1 : l1.getD (l1.length - 1) default ∈ l1 := by
          rw [List.getD_eq_getElem _ _ (by omega)]
          exact List.getElem_mem (by omega)
        have hdist0 : |(l0.getD (l0.length - 1) default).time - T| < 1/2 := by
          have hd := hdom (l0.length - 1) (by omega)
          rw [← heql] at hm1
          have h1le : (l1.getD (l0.length - 1) default).time ≤ T :=
            hle1 _ (by rw [heql]; exact hmem1)
          have h0le : (l0.getD (l0.length - 1) default).time ≤ T :=
            hle0 _ hmem0
          rw [hm1] at hdist1
          rw [abs_of_nonpos (by linarith)] at hdist1 ⊢
          linarith
        rw [heq1, cleanup_getLast_some_close hget0 hdist0]
        simp only [List.length_dropLast]
        omega
      · rw [heq1]
        omega

/-! ## Claim theorems -/

/-- C1: for every onset envelope with strictly increasing timestamps and
every config with `minDuration > 0` and `maxDuration ≥ minDuration`, any
two consecutive markers returned by `generateMarkers` are separated by at
least `minDuration` and at most `maxDuration` (exact bounds, so in
particular within any epsilon slack, and no gap ever exceeds
`maxDuration`). -/
theorem C1_consecutive_gap_bounds (data : OnsetData) (opts : GenOptions)
    (T : ℚ) (uuid : ℕ → ℕ) (hsorted : data.times.Sorted (· < ·))
    (h0 : 0 < opts.minDuration) (h01 : opts.minDuration ≤ opts.maxDuration)
    (ms : List Marker) (hms : generateMarkers data opts T uuid = some ms) :
    List.Chain' (fun a b => opts.minDuration ≤ b.time - a.time ∧
      b.time - a.time ≤ opts.maxDuration) ms := by
  obtain ⟨ms₀, hms₀, rfl⟩ := Option.map_eq_some'.mp hms
  have hchain := genLoop_chain data opts T uuid (monoTimes_of_sorted hsorted) h01
    _ _ _ _ _ hms₀
  have h1 : List.Chain' (fun a b : ℚ => a < T ∧ a + opts.minDuration ≤ b ∧
      b ≤ a + opts.maxDuration ∧ b ≤ T) (ms₀.map Marker.time) :=
    List.Chain'.tail (l := 0 :: ms₀.map Marker.time) hchain
  have h2 := (List.chain'_map Marker.time).mp h1
  refine cleanup_chain T ms₀ (h2.imp ?_)
  intro a b h
  exact ⟨by linarith [h.2.1], by linarith [h.2.2.1]⟩

theorem C1_consecutive_gap_bounds_witness :
    List.Chain' (fun a b => (1 : ℚ) ≤ b.time - a.time ∧ b.time - a.time ≤ 2)
      [(⟨0, 7/5, 1/5, MarkerType.Safety⟩ : Marker)] :=
  C1_consecutive_gap_bounds exData ⟨1, 2, 0⟩ 3 (fun n => n)
    (by norm_num [exData, List.sorted_cons])
    (by norm_num) (by norm_num) _
    (by norm_num [generateMarkers, genFuel, genLoop, advanceIndex, advanceIndexF,
      collectCandidates, collectFrom, isLocalCandidate, chooseFrom, selectCandidate,
      desperationPasses, powCmpLe, reduceStrongest, cleanup, noiseFloor, exData,
      min_def, List.getD, List.getLast?])

/-- C2: for every onset envelope with strictly increasing non-negative
timestamps and every config with `minDuration > 0` and
`maxDuration ≥ minDuration`, the markers returned by `generateMarkers`
have strictly increasing times, each within `[0, totalDuration)`. -/
theorem C2_strictly_increasing_in_range (data : OnsetData) (opts : GenOptions)
    (T : ℚ) (uuid : ℕ → ℕ) (hsorted : data.times.Sorted (· < ·))
    (hnn : ∀ t ∈ data.times, 0 ≤ t)
    (h0 : 0 < opts.minDuration) (h01 : opts.minDuration ≤ opts.maxDuration)
    (ms : List Marker) (hms : generateMarkers data opts T uuid = some ms) :
    List.Pairwise (fun a b => a.time < b.time) ms ∧
      ∀ m ∈ ms, 0 ≤ m.time ∧ m.time < T := by
  obtain ⟨ms₀, hms₀, rfl⟩ := Option.map_eq_some'.mp hms
  have hchain := genLoop_chain data opts T uuid (monoTimes_of_sorted hsorted) h01
    _ _ _ _ _ hms₀
  have hlt0 : List.Chain (· < ·) 0 (ms₀.map Marker.time) := by
    refine hchain.imp ?_
    intro a b h
    linarith [h.2.1]
  have hpw : List.Pairwise (· < ·) ((0 : ℚ) :: ms₀.map Marker.time) :=
    List.chain_iff_pairwise.mp hlt0
  obtain ⟨hpos, hpw2⟩ := List.pairwise_cons.mp hpw
  constructor
  · have hms₀pw : List.Pairwise (fun a b : Marker => a.time < b.time) ms₀ :=
      (List.pairwise_map).mp hpw2
    exact hms₀pw.sublist (cleanup_sublist T ms₀)
  · intro m hm
    refine ⟨le_of_lt (hpos m.time (List.mem_map_of_mem Marker.time
      (cleanup_mem T ms₀ m hm))), ?_⟩
    refine cleanup_mem_lt T ms₀ ?_ ?_ m hm
    · intro m1 hm1
      exact chain_mem_le T opts.minDuration opts.maxDuration _ _ hchain m1.time
        (List.mem_map_of_mem Marker.time hm1)
    · intro j hjs hj
      have h1 : List.Chain' (fun a b : ℚ => a < T ∧ a + opts.minDuration ≤ b ∧
          b ≤ a + opts.maxDuration ∧ b ≤ T) (ms₀.map Marker.time) :=
        List.Chain'.tail (l := 0 :: ms₀.map Marker.time) hchain
      have h2 := List.chain'_iff_get.mp h1 j (by simp only [List.length_map]; omega)
      have hget : (ms₀.map Marker.time).get ⟨j, by simpa using hj⟩ =
          (ms₀.get ⟨j, hj⟩).time := by
        simp
      rw [hget] at h2
      exact h2.1

theorem C2_strictly_increasing_in_range_witness :
    List.Pairwise (fun a b : Marker => a.time < b.time)
      [(⟨0, 7/5, 1/5, MarkerType.Safety⟩ : Marker)] ∧
    ∀ m ∈ [(⟨0, 7/5, 1/5, MarkerType.Safety⟩ : Marker)],
      0 ≤ m.time ∧ m.time < 3 :=
  C2_strictly_increasing_in_range exData ⟨1, 2, 0⟩ 3 (fun n => n)
    (by norm_num [exData, List.sorted_cons])
    (by norm_num [exData]) (by norm_num) (by norm_num) _
    (by norm_num [generateMarkers, genFuel, genLoop, advanceIndex, advanceIndexF,
      collectCandidates, collectFrom, isLocalCandidate, chooseFrom, selectCandidate,
      desperationPasses, powCmpLe, reduceStrongest, cleanup, noiseFloor, exData,
      min_def, List.getD, List.getLast?])

/-- C5: for every onset envelope with strictly increasing timestamps and
every config with `minDuration > 0` and `maxDuration ≥ minDuration`, the
placement loop terminates within `⌈totalDuration/minDuration⌉ + 1`
iterations — each iteration advances the cursor by at least
`minDuration` — so `generateMarkers` (whose fuel `genFuel` is exactly
that bound) returns a result. -/
theorem C5_placement_loop_terminates (data : OnsetData) (opts : GenOptions)
    (T : ℚ) (uuid : ℕ → ℕ) (hsorted : data.times.Sorted (· < ·))
    (h0 : 0 < opts.minDuration) (h01 : opts.minDuration ≤ opts.maxDuration) :
    (generateMarkers data opts T uuid).isSome :=
  generateMarkers_isSome data opts T uuid (monoTimes_of_sorted hsorted) h0 h01

theorem C5_placement_loop_terminates_witness :
    (generateMarkers exData ⟨1, 2, 0⟩ 3 (fun n => n)).isSome :=
  C5_placement_loop_terminates exData ⟨1, 2, 0⟩ 3 (fun n => n)
    (by norm_num [exData, List.sorted_cons]) (by norm_num) (by norm_num)

/-- C7: for a fixed onset envelope with strictly increasing timestamps,
fixed total duration, and duration bounds with `minDuration > 0` and
`maxDuration ≥ minDuration`, `generateMarkers` at sensitivity `1.0`
returns at least as many markers as at sensitivity `0.0`. -/
theorem C7_sensitivity_count_monotone (data : OnsetData) (minD maxD T : ℚ)
    (u1 u0 : ℕ → ℕ) (hsorted : data.times.Sorted (· < ·))
    (h0 : 0 < minD) (h01 : minD ≤ maxD) (ms1 ms0 : List Marker)
    (h1 : generateMarkers data ⟨minD, maxD, 1⟩ T u1 = some ms1)
    (h0m : generateMarkers data ⟨minD, maxD, 0⟩ T u0 = some ms0) :
    ms0.length ≤ ms1.length := by
  have hm := monoTimes_of_sorted hsorted
  rw [generateMarkers] at h1 h0m
  obtain ⟨p1, hp1, hc1⟩ := Option.map_eq_some'.mp h1
  obtain ⟨p0, hp0, hc0⟩ := Option.map_eq_some'.mp h0m
  subst hc1
  subst hc0
  obtain ⟨hlen, hdom⟩ := genLoop_dom data minD maxD 0 T u1 u0 hm h0 h01
    (genFuel T minD) 0 0 0 0 0 0 le_rfl
    (fun j hj => absurd hj (Nat.not_lt_zero j)) p1 p0 hp1 hp0
  refine cleanup_length_dom T p1 p0 hlen hdom ?_ ?_
  · intro m hmem
    exact chain_mem_le T minD maxD _ _
      (genLoop_chain data ⟨minD, maxD, 1⟩ T u1 hm h01 _ _ _ _ _ hp1)
      m.time (List.mem_map_of_mem Marker.time hmem)
  · intro m hmem
    exact chain_mem_le T minD maxD _ _
      (genLoop_chain data ⟨minD, maxD, 0⟩ T u0 hm h01 _ _ _ _ _ hp0)
      m.time (List.mem_map_of_mem Marker.time hmem)

theorem C7_sensitivity_count_monotone_witness :
    ([(⟨0, 7/5, 1/5, MarkerType.Safety⟩ : Marker)]).length ≤
    ([(⟨0, 6/5, 1/5, MarkerType.Cut⟩ : Marker)]).length :=
  C7_sensitivity_count_monotone exData 1 2 3 (fun n => n) (fun n => n)
    (by norm_num [exData, List.sorted_cons]) (by norm_num) (by norm_num)
    [⟨0, 6/5, 1/5, MarkerType.Cut⟩] [⟨0, 7/5, 1/5, MarkerType.Safety⟩]
    (by norm_num [generateMarkers, genFuel, genLoop, advanceIndex, advanceIndexF,
      collectCandidates, collectFrom, isLocalCandidate, chooseFrom, selectCandidate,
      desperationPasses, powCmpLe, reduceStrongest, cleanup, noiseFloor, exData,
      min_def, List.getD, List.getLast?])
    (by norm_num [generateMarkers, genFuel, genLoop, advanceIndex, advanceIndexF,
      collectCandidates, collectFrom, isLocalCandidate, chooseFrom, selectCandidate,
      desperationPasses, powCmpLe, reduceStrongest, cleanup, noiseFloor, exData,
      min_def, List.getD, List.getLast?])

/-- C8: the bisection wrapper evaluates `generateMarkers` at most 8 times
(the ghost trace `tr` lists exactly the evaluated (sensitivity, result)
pairs, in order); `generateMarkersByCount` returns the earliest evaluated
result whose marker count minimizes `|count − target|` over all evaluated
runs (a strictly smaller diff is required to replace the incumbent, so
ties keep the earlier run); and an evaluated run whose count equals the
target exactly is the last evaluation — the search stops there — and that
run is returned. -/
theorem C8_bisection_search (data : OnsetData) (target : ℤ)
    (duration minD maxD : ℚ) (uuids : ℕ → ℕ → ℕ)
    (tr : List (ℚ × List Marker)) (bs : List Marker)
    (h : gmbcLoop data target duration minD maxD uuids 0 8 0 1 [] none =
      some (tr, bs)) :
    generateMarkersByCount data target duration minD maxD uuids = some bs ∧
    tr.length ≤ 8 ∧
    (∃ pre s post, tr = pre ++ (s, bs) :: post ∧
      (∀ p ∈ pre, markerDiff target bs < markerDiff target p.2) ∧
      (∀ p ∈ tr, markerDiff target bs ≤ markerDiff target p.2)) ∧
    (∀ p ∈ tr, (p.2.length : ℤ) = target → tr.getLast? = some p ∧ bs = p.2) := by
  obtain ⟨hlen, hAB, hEH, hne⟩ := gmbcLoop_spec data target duration minD maxD
    uuids 8 0 0 1 [] none (fun d hd => by cases hd) tr bs h
  refine ⟨by rw [generateMarkersByCount, h]; rfl, hlen, ?_, hEH⟩
  rcases hAB with ⟨pre, s, post, hdec, _, hpre, hpost⟩ | ⟨_, hfalse⟩
  · refine ⟨pre, s, post, hdec, hpre, ?_⟩
    intro p hp
    rw [hdec] at hp
    rcases List.mem_append.mp hp with hp1 | hp1
    · exact le_of_lt (hpre p hp1)
    · rcases List.mem_cons.mp hp1 with rfl | hp2
      · exact le_rfl
      · exact hpost p hp2
  · exfalso
    have hne2 := hne (by norm_num)
    cases tr with
    | nil => exact hne2 rfl
    | cons x xs =>
      have := hfalse x (List.mem_cons_self x xs)
      simp [ltInf] at this

theorem C8_bisection_search_witness :
    generateMarkersByCount emptyData 0 1 1 1 (fun _ n => n) = some [] ∧
    ([((1 : ℚ)/2, ([] : List Marker))]).length ≤ 8 ∧
    (∃ pre s post, [((1 : ℚ)/2, ([] : List Marker))] =
        pre ++ (s, ([] : List Marker)) :: post ∧
      (∀ p ∈ pre, markerDiff 0 [] < markerDiff 0 p.2) ∧
      (∀ p ∈ [((1 : ℚ)/2, ([] : List Marker))],
        markerDiff 0 [] ≤ markerDiff 0 p.2)) ∧
    (∀ p ∈ [((1 : ℚ)/2, ([] : List Marker))], (p.2.length : ℤ) = 0 →
      ([((1 : ℚ)/2, ([] : List Marker))]).getLast? = some p ∧
      ([] : List Marker) = p.2) :=
  C8_bisection_search emptyData 0 1 1 1 (fun _ n => n) [((1 : ℚ)/2, [])] []
    (by norm_num [gmbcLoop, markerDiff, ltInf, generateMarkers, genFuel, genLoop,
      advanceIndex, advanceIndexF, collectCandidates, collectFrom, isLocalCandidate,
      chooseFrom, selectCandidate, desperationPasses, powCmpLe, reduceStrongest,
      cleanup, noiseFloor, emptyData, min_def, List.getD, List.getLast?])

/-- C9: for any envelope none of whose values exceeds the `0.05` noise
floor — in particular the empty envelope — `generateMarkers` returns a
result (no exception); given `minDuration > 0` and
`maxDuration ≥ minDuration`, every returned marker is a strength-0
`Safety` marker, and consecutive returned markers are spaced exactly
`maxDuration` apart. -/
theorem C9_low_envelope_all_safety (data : OnsetData) (opts : GenOptions)
    (T : ℚ) (uuid : ℕ → ℕ) (h0 : 0 < opts.minDuration)
    (h01 : opts.minDuration ≤ opts.maxDuration)
    (hlow : ∀ v ∈ data.values, v ≤ noiseFloor) :
    ∃ ms, generateMarkers data opts T uuid = some ms ∧
      (∀ m ∈ ms, m.type = MarkerType.Safety ∧ m.strength = 0) ∧
      List.Chain' (fun a b => b.time = a.time + opts.maxDuration) ms := by
  have hsome := genLoop_low_isSome data opts T uuid hlow h0 h01
  obtain ⟨ms, hms⟩ := Option.isSome_iff_exists.mp hsome
  refine ⟨ms, hms, ?_⟩
  rw [generateMarkers] at hms
  obtain ⟨ms₀, hms₀, hcl⟩ := Option.map_eq_some'.mp hms
  subst hcl
  obtain ⟨hall, hchain⟩ := genLoop_low data opts T uuid hlow _ _ _ _ _ hms₀
  constructor
  · intro m hm
    exact hall m (cleanup_mem T ms₀ m hm)
  · have hchain' : List.Chain' (fun a b : ℚ => a < T ∧
        b = min (a + opts.maxDuration) T) (ms₀.map Marker.time) :=
      List.Chain'.tail (l := 0 :: ms₀.map Marker.time) hchain
    have hpairs : ∀ j : ℕ, ∀ hj1 : j + 1 < ms₀.length,
        (ms₀.get ⟨j, by omega⟩).time < T ∧
        (ms₀.get ⟨j + 1, hj1⟩).time =
          min ((ms₀.get ⟨j, by omega⟩).time + opts.maxDuration) T := by
      intro j hj1
      have h2 := List.chain'_iff_get.mp hchain' j (by simp only [List.length_map]; omega)
      have e1 : (ms₀.map Marker.time).get ⟨j, by simp only [List.length_map]; omega⟩ =
          (ms₀.get ⟨j, by omega⟩).time := by simp
      have e2 : (ms₀.map Marker.time).get ⟨j + 1, by simp only [List.length_map]; omega⟩ =
          (ms₀.get ⟨j + 1, hj1⟩).time := by simp
      rw [e1, e2] at h2
      exact h2
    refine cleanup_chain_of_get T ms₀ _ ?_ ?_ ?_
    · intro m hm
      exact chain_mem_le_min T opts.maxDuration _ _ hchain m.time
        (List.mem_map_of_mem Marker.time hm)
    · intro j hj1 hj
      exact (hpairs j hj1).1
    · intro j hj1 hltT
      have h2 := (hpairs j hj1).2
      rcases le_or_lt ((ms₀.get ⟨j, by omega⟩).time + opts.maxDuration) T with hle2 | hlt2
      · rw [h2, min_eq_left hle2]
      · rw [h2, min_eq_right (le_of_lt hlt2)] at hltT
        exact absurd hltT (lt_irrefl T)

theorem C9_low_envelope_all_safety_witness :
    ∃ ms, generateMarkers emptyData ⟨2, 4, 1/2⟩ 10 (fun n => n) = some ms ∧
      (∀ m ∈ ms, m.type = MarkerType.Safety ∧ m.strength = 0) ∧
      List.Chain' (fun a b => b.time = a.time + (4 : ℚ)) ms :=
  C9_low_envelope_all_safety emptyData ⟨2, 4, 1/2⟩ 10 (fun n => n)
    (by norm_num) (by norm_num) (by simp [emptyData])

/-- C10: every returned `Cut` marker has strength strictly above the
`0.05` noise floor, and equivalently every returned marker with strength
at most the noise floor is a `Safety` marker. -/
theorem C10_cut_markers_above_noise_floor (data : OnsetData)
    (opts : GenOptions) (T : ℚ) (uuid : ℕ → ℕ) (ms : List Marker)
    (hms : generateMarkers data opts T uuid = some ms) :
    ∀ m ∈ ms, (m.type = MarkerType.Cut → noiseFloor < m.strength) ∧
      (m.strength ≤ noiseFloor → m.type = MarkerType.Safety) := by
  obtain ⟨ms₀, hms₀, rfl⟩ := Option.map_eq_some'.mp hms
  intro m hm
  have hcut := genLoop_cut_strength data opts T uuid _ _ _ _ _ hms₀ m
    (cleanup_mem T ms₀ m hm)
  refine ⟨hcut, fun hle => ?_⟩
  cases htype : m.type with
  | Safety => rfl
  | Cut => exact absurd (hcut htype) (not_lt.mpr hle)

/-- C3 (counterexample): the claim says the Safety fallback emits the
*first* candidate attaining the maximum strength.  On this input the first
window `[1, 2]` has exactly two candidates, at times `6/5` and `7/5`, with
equal (maximal) strength `1/5`; neither passes its threshold at
sensitivity `0`, and the emitted Safety marker sits at `7/5` — the *last*
maximal candidate, not the first one at `6/5`. -/
theorem C3_fallback_leftmost_counterexample :
    collectCandidates exData 2 (advanceIndex exData.times 1 0) =
      [⟨1, 6/5, 1/5⟩, ⟨3, 7/5, 1/5⟩] ∧
    generateMarkers exData ⟨1, 2, 0⟩ 3 (fun n => n) =
      some [⟨0, 7/5, 1/5, MarkerType.Safety⟩] ∧
    (7 : ℚ)/5 ≠ 6/5 := by
  norm_num [generateMarkers, genFuel, genLoop, advanceIndex, advanceIndexF,
    collectCandidates, collectFrom, isLocalCandidate, chooseFrom, selectCandidate,
    desperationPasses, powCmpLe, reduceStrongest, cleanup, noiseFloor, exData,
    min_def, List.getD, List.getLast?]

/-- C3 (amended): when the window's candidate list is nonempty but no
candidate passes its decaying threshold, the emitted Safety marker is the
*last* (latest-in-time) candidate attaining the maximum strength over the
window: `reduce` keeps the incumbent only when strictly stronger, so on
ties the later candidate wins. -/
theorem C3_fallback_emits_last_max (opts : GenOptions) (wS wE : ℚ)
    (c : Candidate) (l : List Candidate)
    (hsel : selectCandidate opts wS wE (c :: l) = none) :
    (chooseFrom opts wS wE (c :: l)).2 = true ∧
    ∃ pre post, c :: l = pre ++ (chooseFrom opts wS wE (c :: l)).1 :: post ∧
      (∀ d ∈ c :: l, d.strength ≤ (chooseFrom opts wS wE (c :: l)).1.strength) ∧
      (∀ d ∈ post, d.strength < (chooseFrom opts wS wE (c :: l)).1.strength) := by
  have hch : chooseFrom opts wS wE (c :: l) = (reduceStrongest c l, true) := by
    simp only [chooseFrom, hsel]
  rw [hch]
  refine ⟨rfl, ?_⟩
  rcases reduceStrongest_spec l c with ⟨heq, hall⟩ | ⟨pre, post, hdec, hge, hpre, hpost⟩
  · rw [heq]
    refine ⟨[], l, by simp, ?_, hall⟩
    intro d hd
    rcases List.mem_cons.mp hd with rfl | hd2
    · exact le_rfl
    · exact le_of_lt (hall d hd2)
  · refine ⟨c :: pre, post, by simp [← hdec], ?_, hpost⟩
    intro d hd
    rcases List.mem_cons.mp hd with rfl | hd2
    · exact hge
    · rw [hdec] at hd2
      rcases List.mem_append.mp hd2 with hd3 | hd3
      · exact hpre d hd3
      · rcases List.mem_cons.mp hd3 with rfl | hd4
        · exact le_rfl
        · exact le_of_lt (hpost d hd4)

theorem C3_fallback_emits_last_max_witness :
    (chooseFrom ⟨1, 2, 0⟩ 1 2
      [(⟨1, 6/5, 1/5⟩ : Candidate), ⟨3, 7/5, 1/5⟩]).2 = true ∧
    ∃ pre post, [(⟨1, 6/5, 1/5⟩ : Candidate), ⟨3, 7/5, 1/5⟩] =
        pre ++ (chooseFrom (⟨1, 2, 0⟩ : GenOptions) 1 2
          [(⟨1, 6/5, 1/5⟩ : Candidate), ⟨3, 7/5, 1/5⟩]).1 :: post ∧
      (∀ d ∈ [(⟨1, 6/5, 1/5⟩ : Candidate), ⟨3, 7/5, 1/5⟩], d.strength ≤
        (chooseFrom (⟨1, 2, 0⟩ : GenOptions) 1 2
          [(⟨1, 6/5, 1/5⟩ : Candidate), ⟨3, 7/5, 1/5⟩]).1.strength) ∧
      (∀ d ∈ post, d.strength <
        (chooseFrom (⟨1, 2, 0⟩ : GenOptions) 1 2
          [(⟨1, 6/5, 1/5⟩ : Candidate), ⟨3, 7/5, 1/5⟩]).1.strength) :=
  C3_fallback_emits_last_max ⟨1, 2, 0⟩ 1 2 ⟨1, 6/5, 1/5⟩ [⟨3, 7/5, 1/5⟩]
    (by norm_num [selectCandidate, desperationPasses, powCmpLe])

/-- C4 (counterexample): two calls to `generateMarkers` with identical
envelope, config and duration do *not* return identical marker lists in
every field: the `id` fields come from fresh `crypto.randomUUID()` draws
(modelled by the id-supply argument), and two calls drawing different ids
differ on the `id` field. -/
theorem C4_identical_in_every_field_counterexample :
    generateMarkers exData ⟨1, 2, 0⟩ 3 (fun n => n) ≠
    generateMarkers exData ⟨1, 2, 0⟩ 3 (fun n => n + 1) := by
  norm_num [generateMarkers, genFuel, genLoop, advanceIndex, advanceIndexF,
    collectCandidates, collectFrom, isLocalCandidate, chooseFrom, selectCandidate,
    desperationPasses, powCmpLe, reduceStrongest, cleanup, noiseFloor, exData,
    min_def, List.getD, List.getLast?]

/-- C4 (amended): `generateMarkers` is deterministic in every field except
the opaque `id`: for identical envelope, config and duration, and any two
fresh-id supplies, the two calls return marker lists that agree on time,
strength and type of every marker (only the `crypto.randomUUID()`-drawn
`id` fields can differ). -/
theorem C4_deterministic_modulo_ids (data : OnsetData) (opts : GenOptions)
    (T : ℚ) (u1 u2 : ℕ → ℕ) :
    (generateMarkers data opts T u1).map (List.map markerData) =
    (generateMarkers data opts T u2).map (List.map markerData) := by
  unfold generateMarkers
  have key := genLoop_markerData data opts T u1 u2
    (genFuel T opts.minDuration) 0 0 0 0
  cases h1 : genLoop data opts T u1 (genFuel T opts.minDuration) 0 0 0 with
  | none =>
    rw [h1] at key
    cases h2 : genLoop data opts T u2 (genFuel T opts.minDuration) 0 0 0 with
    | none => simp
    | some l2 => rw [h2] at key; simp at key
  | some l1 =>
    rw [h1] at key
    cases h2 : genLoop data opts T u2 (genFuel T opts.minDuration) 0 0 0 with
    | none => rw [h2] at key; simp at key
    | some l2 =>
      rw [h2] at key
      simp only [Option.map_some'] at key ⊢
      exact congrArg some
        (cleanup_markerData T l1 l2 (Option.some_injective _ key))

/-- C6 (counterexample): the claim says a sample merely equal to a
neighbour (a plateau) is never a candidate.  The code compares with `>=`:
on this plateau envelope the interior sample (equal to both neighbours)
*is* collected as the sole candidate of the first window `[1, 5]` of
`generateMarkers`, and is then emitted as a `Cut` marker. -/
theorem C6_plateau_counterexample :
    collectCandidates plateauData 5 (advanceIndex plateauData.times 1 0) =
      [⟨1, 2, 1/2⟩] ∧
    plateauData.values.getD 1 0 = plateauData.values.getD 0 0 ∧
    generateMarkers plateauData ⟨1, 5, 1⟩ 10 (fun n => n) =
      some [⟨0, 2, 1/2, MarkerType.Cut⟩, ⟨1, 7, 0, MarkerType.Safety⟩] := by
  norm_num [generateMarkers, genFuel, genLoop, advanceIndex, advanceIndexF,
    collectCandidates, collectFrom, isLocalCandidate, chooseFrom, selectCandidate,
    desperationPasses, powCmpLe, reduceStrongest, cleanup, noiseFloor, plateauData,
    min_def, List.getD, List.getLast?]

/-- C6 (amended): in a placement window (scanned from the advanced index,
whose skipped prefix lies strictly below `winStart`), the candidate list
consists exactly of the interior envelope samples whose value is at least
(`≥`, non-strict — so plateau samples qualify) both immediate neighbours,
whose timestamp lies in `[winStart, winEnd]`, and whose value exceeds the
`0.05` noise floor. -/
theorem C6_window_candidates_exactly (data : OnsetData) (wS wE : ℚ)
    (ci : ℕ) (hsorted : data.times.Sorted (· < ·))
    (hinv : ∀ j : ℕ, j < ci → data.times.getD j 0 < wS) (c : Candidate) :
    c ∈ collectCandidates data wE (advanceIndex data.times wS ci) ↔
    ∃ i : ℕ, c = ⟨(i : ℤ), data.times.getD i 0, data.values.getD i 0⟩ ∧
      0 < i ∧ i + 1 < data.values.length ∧ i < data.times.length ∧
      wS ≤ data.times.getD i 0 ∧ data.times.getD i 0 ≤ wE ∧
      data.values.getD (i - 1) 0 ≤ data.values.getD i 0 ∧
      data.values.getD (i + 1) 0 ≤ data.values.getD i 0 ∧
      noiseFloor < data.values.getD i 0 := by
  have hm := monoTimes_of_sorted hsorted
  constructor
  · intro hc
    obtain ⟨j, haj, hjlen, hwE, hloc, rfl⟩ :=
      mem_collectCandidates data wE (advanceIndex data.times wS ci) c hc
    obtain ⟨h1, h2, h3, h4, h5⟩ := (isLocalCandidate_iff data.values j).mp hloc
    refine ⟨j, rfl, h1, h2, hjlen, ?_, hwE, h3, h4, h5⟩
    have ha : advanceIndex data.times wS ci < data.times.length := by omega
    exact le_trans (advanceIndex_stop data.times wS ci ha)
      (hm (advanceIndex data.times wS ci) j haj hjlen)
  · rintro ⟨i, rfl, h1, h2, hilen, hwS, hwE, h3, h4, h5⟩
    have hai : advanceIndex data.times wS ci ≤ i := by
      by_contra hlt
      push_neg at hlt
      rcases lt_or_le i ci with hici | hici
      · exact absurd hwS (not_le.mpr (hinv i hici))
      · exact absurd hwS (not_le.mpr (advanceIndex_below data.times wS ci i hici hlt))
    exact collectFrom_complete data wE hm data.times.length
      (advanceIndex data.times wS ci) i hai (by omega) hilen hwE
      ((isLocalCandidate_iff data.values i).mpr ⟨h1, h2, h3, h4, h5⟩)

theorem C6_window_candidates_exactly_witness :
    ((⟨1, 2, 1/2⟩ : Candidate) ∈
      collectCandidates plateauData 5 (advanceIndex plateauData.times 1 0)) ↔
    (∃ i : ℕ, (⟨1, 2, 1/2⟩ : Candidate) =
        ⟨(i : ℤ), plateauData.times.getD i 0, plateauData.values.getD i 0⟩ ∧
      0 < i ∧ i + 1 < plateauData.values.length ∧ i < plateauData.times.length ∧
      1 ≤ plateauData.times.getD i 0 ∧ plateauData.times.getD i 0 ≤ 5 ∧
      plateauData.values.getD (i - 1) 0 ≤ plateauData.values.getD i 0 ∧
      plateauData.values.getD (i + 1) 0 ≤ plateauData.values.getD i 0 ∧
      noiseFloor < plateauData.values.getD i 0) :=
  C6_window_candidates_exactly plateauData 1 5 0
    (by norm_num [plateauData, List.sorted_cons])
    (fun j hj => absurd hj (Nat.not_lt_zero j)) ⟨1, 2, 1/2⟩

theorem C10_cut_markers_above_noise_floor_witness :
    ((⟨0, 6/5, 1/5, MarkerType.Cut⟩ : Marker).type = MarkerType.Cut →
      noiseFloor < (⟨0, 6/5, 1/5, MarkerType.Cut⟩ : Marker).strength) ∧
    ((⟨0, 6/5, 1/5, MarkerType.Cut⟩ : Marker).strength ≤ noiseFloor →
      (⟨0, 6/5, 1/5, MarkerType.Cut⟩ : Marker).type = MarkerType.Safety) :=
  C10_cut_markers_above_noise_floor exData ⟨1, 2, 1⟩ 3 (fun n => n)
    [⟨0, 6/5, 1/5, MarkerType.Cut⟩]
    (by norm_num [generateMarkers, genFuel, genLoop, advanceIndex, advanceIndexF,
      collectCandidates, collectFrom, isLocalCandidate, chooseFrom, selectCandidate,
      desperationPasses, powCmpLe, reduceStrongest, cleanup, noiseFloor, exData,
      min_def, List.getD, List.getLast?])
    ⟨0, 6/5, 1/5, MarkerType.Cut⟩ (List.mem_singleton.mpr rfl)

end SonicCut
